import Mathlib

/-! # hugopix: the incremental derived-artifact pipeline

A shallow embedding of `hugopix.go` (`thumbnail` and `main`) together with the
library calls it relies on (`strings`, `path/filepath`, the `os` file calls),
and the properties of the gallery pipeline proved or refuted over it.

Go strings are modelled as lists of characters. The file system is a map from
files to their content and modification time; a file is identified by the
absolute, cleaned form of a path that names it (`Env.resolve`), so that a
relative and an absolute path to the same place name the same file. Symbolic
links and the sharing of content between hard links are not modelled. Library
calls whose result is not determined by that state (image codecs, resampling,
smart cropping, the profiler, I/O failures) are oracle fields of `Env`.
-/

namespace Hugopix

/-! ## Strings (package `strings`) -/

/-- A Go string, as the list of its characters. -/
abbrev Str := List Char

/-- Go `strings.HasPrefix(s, p)`. -/
def startsWith : Str → Str → Bool
  | _, [] => true
  | [], _ :: _ => false
  | c :: cs, p :: ps => decide (c = p) && startsWith cs ps

/-- Go `strings.Contains(s, sub)`. -/
def Contains : Str → Str → Bool
  | [], sub => sub.isEmpty
  | c :: cs, sub => startsWith (c :: cs) sub || Contains cs sub

/-- Go `strings.LastIndex(s, ".")`; `none` stands for the result `-1`. -/
def LastIndexDot : Str → Option Nat
  | [] => none
  | c :: cs =>
    match LastIndexDot cs with
    | some i => some (i + 1)
    | none => if c = '.' then some 0 else none

/-- Go `strings.ToLower`. Only ASCII letters are mapped; this is exact for the
comparison with `.jpg`, `.jpeg`, `.png` made by `thumbnail`, because no
non-ASCII rune lower-cases to one of the letters of these three words. -/
def ToLower (s : Str) : Str := s.map Char.toLower

/-- The worker of `Replace`: `skip` counts the characters of a match of `old`
that are still to be passed over. -/
def replaceGo (old new : Str) : Nat → Str → Str
  | 0, [] => if old.isEmpty then new else []
  | _ + 1, [] => []
  | skip + 1, _ :: cs => replaceGo old new skip cs
  | 0, c :: cs =>
    if startsWith (c :: cs) old then new ++ replaceGo old new (old.length - 1) cs
    else c :: replaceGo old new 0 cs

/-- Go `strings.Replace(s, old, new, -1)`: every non-overlapping occurrence of
`old`, scanning from the left, is replaced by `new`. -/
def Replace (s old new : Str) : Str := replaceGo old new 0 s

/-- Go `strings.Trim(s, "\"")`: leading and trailing double quotes removed. -/
def TrimQuotes (s : Str) : Str :=
  ((s.dropWhile (fun c => decide (c = '"'))).reverse.dropWhile
    (fun c => decide (c = '"'))).reverse

/-! ## Paths (package `path/filepath`, Unix) -/

/-- Go `strings.Split(s, "/")`. -/
def splitSlash : Str → List Str
  | [] => [[]]
  | c :: cs =>
    if c = '/' then [] :: splitSlash cs
    else
      match splitSlash cs with
      | [] => [[c]]
      | h :: t => (c :: h) :: t

/-- Go `strings.Join(elems, "/")`. -/
def joinSlash : List Str → Str
  | [] => []
  | [a] => a
  | a :: b :: t => a ++ '/' :: joinSlash (b :: t)

/-- One path element handled by the loop of `filepath.Clean`. The output buffer
is kept as the list of the elements written so far, last one first. An empty
element and `.` are dropped; `..` removes the last real element when there is
one, is kept when the path is not rooted, and is dropped at the root; any other
element is appended. -/
def cleanStep (rooted : Bool) (out : List Str) (elem : Str) : List Str :=
  if elem = [] ∨ elem = ['.'] then out
  else if elem = ['.', '.'] then
    match out with
    | top :: rest => if top = ['.', '.'] then elem :: out else rest
    | [] => if rooted then [] else [elem]
  else elem :: out

/-- Go `filepath.Clean`. -/
def Clean (path : Str) : Str :=
  if path = [] then ['.']
  else
    let rooted := startsWith path ['/']
    let out := (splitSlash path).foldl (cleanStep rooted) []
    let s := (if rooted then ['/'] else []) ++ joinSlash out.reverse
    if s = [] then ['.'] else s

/-- Go `filepath.Join(a, b)`: empty elements are ignored, the rest is joined
with `/` and cleaned. -/
def Join (a b : Str) : Str :=
  if a = [] then (if b = [] then [] else Clean b)
  else Clean (a ++ '/' :: b)

/-- Go `filepath.Base`: the last element of the path, after removing trailing
slashes; `.` for the empty path and `/` for a path of slashes only. -/
def Base (path : Str) : Str :=
  if path = [] then ['.']
  else
    let p := path.reverse.dropWhile (fun c => decide (c = '/'))
    let last := (p.takeWhile (fun c => !decide (c = '/'))).reverse
    if last = [] then ['/'] else last

/-! ## Data model -/

/-- The Go struct `Pix`: one manifest entry. -/
structure Pix where
  Filename : Str
  Small : Str
  Thumbnail : Str
  Width : Nat
  Height : Nat
  SmallWidth : Nat
  SmallHeight : Nat
  Copyright : Str
deriving DecidableEq

/-- A decoded `image.Image`: its size, an identifier of its pixel data, and
whether its dynamic type has the method `SubImage`. -/
structure Image where
  width : Nat
  height : Nat
  pixels : Nat
  subImager : Bool
deriving DecidableEq

/-- An `image.Rectangle`. -/
structure Rect where
  minX : Nat
  minY : Nat
  maxX : Nat
  maxY : Nat
deriving DecidableEq

/-- A file: its bytes and its modification time. -/
structure File where
  content : Str
  modTime : Nat
deriving DecidableEq

/-- The file system: the file a path resolves to (see `Env.resolve`), when it
exists. -/
abbrev FS := Str → Option File

/-- The file system with the file `p` replaced. -/
def FS.set (fs : FS) (p : Str) (f : Option File) : FS :=
  fun q => if q = p then f else fs q

/-- The calls `thumbnail` and `main` make that change files or run the crop
search, recorded in the order they are made. -/
inductive Event where
  | remove (p : Str)
  | link (src dst : Str)
  | copy (src dst : Str)
  | create (p : Str)
  | write (p : Str)
  | crop (fn : Str)
deriving DecidableEq

/-- The Go `error` values `thumbnail` and the walk return. -/
inductive Err where
  | copyFile (src dst : Str)
  | openFile (path : Str)
  | decode (path : Str)
  | create (path : Str)
  | unexpectedFormat (format : Str)
  | crop (fn : Str)
  | walk (path : Str)
deriving DecidableEq

/-- How a call of `shutil.CopyFile` on an existing source ends: the destination
holds the source bytes; or the call is refused before the destination is
touched; or it breaks after the destination was created, leaving in it the
bytes written so far. -/
inductive CopyOutcome where
  | copied
  | refused
  | broken (written : Str)
deriving DecidableEq

/-- The mutable state: the file system, the global slice `pix`, and the record
of calls made. -/
structure World where
  fs : FS
  pix : List Pix
  trace : List Event

/-- The globals set once from the command line (`target`, `small_w`, `small_h`,
`thm_w`, `thm_h`, the title, the `-cpuprofile` file name, empty when the flag is
not given), the working directory, the clock, and the library calls whose
outcome the file-system state does not determine. -/
structure Env where
  cwd : Str
  target : Str
  cpuprofile : Str
  profileData : Str
  small_w : Nat
  small_h : Nat
  thm_w : Nat
  thm_h : Nat
  title : Str
  today : Str
  now : Nat
  mkdirAllOk : Str → Bool
  removeOk : Str → Bool
  linkOk : Str → Str → Bool
  copyOutcome : Str → Str → CopyOutcome
  openOk : Str → Bool
  createOk : Str → Bool
  decode : Str → Option (Image × Str)
  exifCopyright : Str → Option Str
  resizeThumbnail : Nat → Nat → Image → Image
  resize : Nat → Nat → Image → Image
  smartcrop : Image → Nat → Nat → Option Rect
  subImage : Image → Rect → Image
  encodeJpeg : Image → Str
  encodePng : Image → Str

/-! ## File calls (package `os`, `shutil.CopyFile`) -/

/-- The file a path names: an absolute path names its cleaned form, a relative
path the cleaned form of its join with the working directory. -/
def Env.resolve (env : Env) (p : Str) : Str :=
  if startsWith p ['/'] then Clean p else Join env.cwd p

/-- Appends one event to the record of calls. -/
def World.log (w : World) (e : Event) : World :=
  { w with trace := w.trace ++ [e] }

/-- Go `os.Remove(p)`; the caller ignores the result. -/
def osRemove (env : Env) (p : Str) (w : World) : World :=
  let w1 := w.log (.remove p)
  if env.removeOk p then { w1 with fs := w1.fs.set (env.resolve p) none } else w1

/-- Go `os.Link(src, dst)`: needs an existing source and a free destination;
the new name refers to the same file. The boolean is `err == nil`. -/
def osLink (env : Env) (src dst : Str) (w : World) : Bool × World :=
  let w1 := w.log (.link src dst)
  match w.fs (env.resolve src), w.fs (env.resolve dst) with
  | some f, none =>
    if env.linkOk src dst then (true, { w1 with fs := w1.fs.set (env.resolve dst) (some f) })
    else (false, w1)
  | _, _ => (false, w1)

/-- The call `shutil.CopyFile(src, dst, false)`: refuses a missing source and a
copy of a file onto itself; otherwise it ends as `env.copyOutcome` says, the
destination holding the source bytes, nothing, or what was written before the
copy broke. -/
def CopyFile (env : Env) (src dst : Str) (w : World) : Bool × World :=
  let w1 := w.log (.copy src dst)
  match w.fs (env.resolve src) with
  | none => (false, w1)
  | some f =>
    if env.resolve src = env.resolve dst then (false, w1)
    else
      match env.copyOutcome src dst with
      | .copied =>
        (true, { w1 with fs := w1.fs.set (env.resolve dst) (some ⟨f.content, env.now⟩) })
      | .refused => (false, w1)
      | .broken written =>
        (false, { w1 with fs := w1.fs.set (env.resolve dst) (some ⟨written, env.now⟩) })

/-- Go `os.Create(p)`: creates or truncates the file. -/
def osCreate (env : Env) (p : Str) (w : World) : Bool × World :=
  let w1 := w.log (.create p)
  if env.createOk p then
    (true, { w1 with fs := w1.fs.set (env.resolve p) (some ⟨[], env.now⟩) })
  else (false, w1)

/-- Writing `data` through the handle `os.Create(p)` returned (the calls
`jpeg.Encode`, `png.Encode`, the buffered writes to the index, and the profile
written when profiling stops); the result of the write is ignored by the
callers. -/
def writeFile (env : Env) (p : Str) (data : Str) (w : World) : World :=
  let w1 := w.log (.write p)
  { w1 with fs := w1.fs.set (env.resolve p) (some ⟨data, env.now⟩) }

/-! ## `thumbnail` -/

/-- The `switch strings.ToLower(ext)` of lines 63-71. -/
def isPhotoExt (ext : Str) : Bool :=
  decide (ToLower ext = ".jpg".toList) || decide (ToLower ext = ".jpeg".toList)
    || decide (ToLower ext = ".png".toList)

/-- Lines 44-71 of `thumbnail`: `none` when the function returns nil at once,
`some (fn, ext)` when the path goes on to be processed. -/
def classify (target path : Str) : Option (Str × Str) :=
  let fn := Join target (Base path)
  if Contains fn "_thm.".toList || Contains fn "_small.".toList then none
  else
    match LastIndexDot fn with
    | none => none
    | some ext_offset =>
      let ext := fn.drop ext_offset
      if isPhotoExt ext then some (fn, ext) else none

/-- Lines 72-82: an existing `fn` is removed, then `path` is linked to `fn`,
or copied when the link fails. -/
def passthrough (env : Env) (path fn : Str) (w : World) : Option Err × World :=
  let w1 := match w.fs (env.resolve fn) with
    | some _ => osRemove env fn w
    | none => w
  match osLink env path fn w1 with
  | (true, w2) => (none, w2)
  | (false, w2) =>
    match CopyFile env path fn w2 with
    | (true, w3) => (none, w3)
    | (false, w3) => (some (.copyFile path fn), w3)

/-- Lines 83-102: the source is opened and decoded, and the copyright tag read
and trimmed; the result is the image, its format name and the copyright. -/
def load (env : Env) (path : Str) (w : World) : Except Err (Image × Str × Str) :=
  match w.fs (env.resolve path) with
  | none => .error (.openFile path)
  | some f =>
    if env.openOk path then
      match env.decode f.content with
      | none => .error (.decode path)
      | some (img, format) =>
        let copyright := match env.exifCopyright f.content with
          | some c => c
          | none => []
        .ok (img, format, TrimQuotes copyright)
    else .error (.openFile path)

/-- The name of line 103. -/
def smallFn (fn ext : Str) : Str := Replace fn ext ("_small".toList ++ ext)

/-- The name of line 104. -/
def thmFn (fn ext : Str) : Str := Replace fn ext ("_thm".toList ++ ext)

/-- The entry appended at line 108. -/
def entry (env : Env) (fn ext : Str) (img : Image) (copyright : Str) : Pix :=
  let small_img := env.resizeThumbnail env.small_w env.small_h img
  ⟨Base fn, Base (smallFn fn ext), Base (thmFn fn ext), img.width, img.height,
    small_img.width, small_img.height, copyright⟩

/-- The two `switch format` blocks (lines 119-126 and 161-168). -/
def encodeTo (env : Env) (p format : Str) (img : Image) (w : World) : Option Err × World :=
  if format = "jpeg".toList then (none, writeFile env p (env.encodeJpeg img) w)
  else if format = "png".toList then (none, writeFile env p (env.encodePng img) w)
  else (some (.unexpectedFormat format), w)

/-- Lines 105-127: the entry is appended, then the small file is written when
it is missing or older than the source. -/
def buildSmall (env : Env) (fn ext : Str) (fn_stat : Nat) (img : Image) (format copyright : Str)
    (w : World) : Option Err × World :=
  let small_fn := smallFn fn ext
  let small_stat := w.fs (env.resolve small_fn)
  let small_img := env.resizeThumbnail env.small_w env.small_h img
  let w1 := { w with pix := w.pix ++ [entry env fn ext img copyright] }
  let stale := match small_stat with
    | none => true
    | some st => decide (st.modTime < fn_stat)
  if stale then
    match osCreate env small_fn w1 with
    | (false, w2) => (some (.create small_fn), w2)
    | (true, w2) => encodeTo env small_fn format small_img w2
  else (none, w1)

/-- Lines 128-169: unless the thumbnail file is more recent than the source,
the crop is searched and the thumbnail written. -/
def buildThumb (env : Env) (fn ext : Str) (fn_stat : Nat) (img : Image) (format : Str)
    (w : World) : Option Err × World :=
  let thm_fn := thmFn fn ext
  let recent := match w.fs (env.resolve thm_fn) with
    | none => false
    | some st => decide (fn_stat < st.modTime)
  if recent then (none, w)
  else
    let w1 := w.log (.crop fn)
    match env.smartcrop img env.thm_w env.thm_h with
    | none => (some (.crop fn), w1)
    | some crop =>
      if img.subImager then
        let thm_img := env.resize env.thm_w env.thm_h (env.subImage img crop)
        match osCreate env thm_fn w1 with
        | (false, w2) => (some (.create thm_fn), w2)
        | (true, w2) => encodeTo env thm_fn format thm_img w2
      else (none, w1)

/-- The function `thumbnail(path, fn_stat)`; `fn_stat` is the modification time
the walk reports for `path`. The result is the returned `error` (`none` for
nil) and the state left behind. Log output is not modelled. -/
def thumbnail (env : Env) (path : Str) (fn_stat : Nat) (w : World) : Option Err × World :=
  match classify env.target path with
  | none => (none, w)
  | some (fn, ext) =>
    match passthrough env path fn w with
    | (some e, w1) => (some e, w1)
    | (none, w1) =>
      match load env path w1 with
      | .error e => (some e, w1)
      | .ok (img, format, copyright) =>
        match buildSmall env fn ext fn_stat img format copyright w1 with
        | (some e, w2) => (some e, w2)
        | (none, w2) => buildThumb env fn ext fn_stat img format w2

/-! ## `main` -/

/-- The ways `main` ends through `log.Fatal`. -/
inductive Fatal where
  | noOutputDir
  | mkdirFailed
  | createIndexFailed
  | profileFailed
  | walkError (e : Err)
  | noPhotos
deriving DecidableEq

/-- One call of the walk function: the path, the modification time of its
`os.FileInfo`, and the error the walk hands over. -/
structure WalkEntry where
  path : Str
  modTime : Nat
  err : Option Err

/-- The closure passed to `filepath.Walk` (lines 223-228). -/
def walkFn (env : Env) (e : WalkEntry) (w : World) : Option Err × World :=
  match e.err with
  | some err => (some err, w)
  | none => thumbnail env e.path e.modTime w

/-- The call `filepath.Walk` over the entries it visits, in order: it stops at
the first error the walk function returns and returns it. -/
def walk (env : Env) : List WalkEntry → World → Option Err × World
  | [], w => (none, w)
  | e :: es, w =>
    match walkFn env e w with
    | (some err, w1) => (some err, w1)
    | (none, w1) => walk env es w1

/-- The format verb `%d`. -/
def fmtD (n : Nat) : Str := Nat.toDigits 10 n

/-- The header lines 237-243 of the index. -/
def renderHeader (title today cover : Str) : Str :=
  "+++\n".toList ++ "title = \"".toList ++ title ++ "\"\n".toList
    ++ "date = \"".toList ++ today ++ "\"\n".toList
    ++ "categories = [\"\"\"photos\"\"\"]\n".toList
    ++ "cover = \"".toList ++ cover ++ "\"\n".toList
    ++ "+++\n\n".toList
    ++ "\x7b\x7b< wrap >\x7d\x7d\n".toList

/-- The block line 247 prints for one entry. -/
def renderPhoto (thm_w thm_h : Nat) (p : Pix) : Str :=
  "\x7b\x7b< photo\n    href=\"".toList ++ p.Filename
    ++ "\" largeDim=\"".toList ++ fmtD p.Width ++ "x".toList ++ fmtD p.Height
    ++ "\"\n    smallUrl=\"".toList ++ p.Small
    ++ "\" smallDim=\"".toList ++ fmtD p.SmallWidth ++ "x".toList ++ fmtD p.SmallHeight
    ++ "\"\n    thumbSize=\"".toList ++ fmtD thm_w ++ "x".toList ++ fmtD thm_h
    ++ "\" thumbUrl=\"".toList ++ p.Thumbnail
    ++ "\"\n    title=\"\"\n    caption=\"\"\n    alt=\"\"\n    copyright=\"".toList
    ++ p.Copyright ++ "\" >\x7d\x7d\n".toList

/-- The closing line 250. -/
def renderFooter : Str := "\x7b\x7b< /wrap >\x7d\x7d\n".toList

/-- Everything lines 237-251 write to the index, for a non-empty `pix` whose
first entry is `p0`. -/
def renderIndex (env : Env) (p0 : Pix) (pix : List Pix) : Str :=
  renderHeader env.title env.today p0.Filename
    ++ (pix.map (renderPhoto env.thm_w env.thm_h)).flatten ++ renderFooter

/-- The path of the index file (line 203). -/
def indexPath (env : Env) : Str := Join env.target "index.md".toList

/-- Lines 195-220 of `main`: the output directory is required and created, the
index file is created (or truncated) before anything is walked, the profile
file is created when `-cpuprofile` names one, and `pix` is reset. What the
profiler writes is modelled at the point where profiling stops. -/
def setup (env : Env) (w : World) : Option Fatal × World :=
  if env.target = [] then (some .noOutputDir, w)
  else if !env.mkdirAllOk env.target then (some .mkdirFailed, w)
  else
    match osCreate env (indexPath env) w with
    | (false, w1) => (some .createIndexFailed, w1)
    | (true, w1) =>
      if env.cpuprofile = [] then (none, { w1 with pix := [] })
      else
        match osCreate env env.cpuprofile w1 with
        | (false, w2) => (some .profileFailed, w2)
        | (true, w2) => (none, { w2 with pix := [] })

/-- The deferred `pprof.StopCPUProfile()` (line 217), run when `main` returns
and skipped by `log.Fatal`: the profile is written to the profile file. -/
def stopProfile (env : Env) (w : World) : World :=
  if env.cpuprofile = [] then w else writeFile env env.cpuprofile env.profileData w

/-- Lines 233-253 of `main`: an empty `pix` is fatal, otherwise the index is
written and `main` returns. -/
def finish (env : Env) (w : World) : Option Fatal × World :=
  match w.pix with
  | [] => (some .noPhotos, w)
  | p0 :: rest =>
    (none, stopProfile env
      (writeFile env (indexPath env) (renderIndex env p0 (p0 :: rest)) w))

/-- The function `main` after flag parsing, over the entries the walk visits.
The result is `none` when `main` returns and the fatal exit otherwise, with the
state left behind. -/
def main (env : Env) (entries : List WalkEntry) (w : World) : Option Fatal × World :=
  match setup env w with
  | (some f, w1) => (some f, w1)
  | (none, w1) =>
    match walk env entries w1 with
    | (some e, w2) => (some (.walkError e), w2)
    | (none, w2) => finish env w2

/-! ## Notions used in the statements -/

/-- A file's name: not empty, without a slash, and neither `.` nor `..`. -/
def FileName (n : Str) : Prop := n ≠ [] ∧ '/' ∉ n ∧ n ≠ ['.'] ∧ n ≠ ['.', '.']

instance (n : Str) : Decidable (FileName n) := by
  unfold FileName
  infer_instance

/-- A directory part in front of a file's name: nothing, or a string that ends
in a slash. -/
def DirPart (p : Str) : Prop := p = [] ∨ ∃ q, p = q ++ ['/']

/-- The path `x` ends in the file name `n`: a directory part followed by `n`. -/
def EndsInName (x n : Str) : Prop := ∃ d, DirPart d ∧ x = d ++ n ∧ FileName n

/-- The calls a call of `thumbnail` on `path` can make: those on the full-size
copy, on the small file and on the thumbnail file of a processed path. -/
def thumbnailEvent (env : Env) (path : Str) (ev : Event) : Prop :=
  ∃ fn ext, classify env.target path = some (fn, ext)
    ∧ (ev = .remove fn ∨ ev = .link path fn ∨ ev = .copy path fn
      ∨ ev = .create (smallFn fn ext) ∨ ev = .write (smallFn fn ext)
      ∨ ev = .crop fn ∨ ev = .create (thmFn fn ext) ∨ ev = .write (thmFn fn ext))

/-- The file `q` is none of the files a call of `thumbnail` on `path` handles. -/
def untouchedBy (env : Env) (path : Str) (q : Str) : Prop :=
  ∀ fn ext, classify env.target path = some (fn, ext) →
    q ≠ env.resolve fn ∧ q ≠ env.resolve (smallFn fn ext) ∧ q ≠ env.resolve (thmFn fn ext)

/-- The calls recorded between the state `w` and the later state `w'`. -/
def newEvents (w w' : World) : List Event := w'.trace.drop w.trace.length

/-- The small file of `fn` is missing or older than the time `t` (line 109). -/
def smallStale (env : Env) (fs : FS) (fn ext : Str) (t : Nat) : Prop :=
  fs (env.resolve (smallFn fn ext)) = none
    ∨ ∃ st, fs (env.resolve (smallFn fn ext)) = some st ∧ st.modTime < t

/-- The thumbnail file of `fn` exists and is strictly more recent than the time
`t` (line 129). -/
def thumbRecent (env : Env) (fs : FS) (fn ext : Str) (t : Nat) : Prop :=
  ∃ st, fs (env.resolve (thmFn fn ext)) = some st ∧ t < st.modTime

instance (env : Env) (fs : FS) (fn ext : Str) (t : Nat) :
    Decidable (smallStale env fs fn ext t) :=
  match h : fs (env.resolve (smallFn fn ext)) with
  | none => isTrue (Or.inl h)
  | some st =>
    if h2 : st.modTime < t then isTrue (Or.inr ⟨st, h, h2⟩)
    else isFalse (by
      rintro (h3 | ⟨st', h3, h4⟩)
      · rw [h] at h3
        cases h3
      · rw [h] at h3
        cases h3
        exact h2 h4)

/-- The calls that install the full-size copy (lines 72-82). -/
def Event.isPassthrough : Event → Bool
  | .remove _ => true
  | .link _ _ => true
  | .copy _ _ => true
  | _ => false

/-- For a walked entry that is processed, both derivatives are up to date in
the file system `fs`: the small file exists and is not older than the source,
the thumbnail file exists and is strictly more recent than the source. -/
def derivativesFresh (env : Env) (fs : FS) (e : WalkEntry) : Prop :=
  ∀ fn ext, classify env.target e.path = some (fn, ext) →
    ¬ smallStale env fs fn ext e.modTime ∧ thumbRecent env fs fn ext e.modTime

/-- The walked paths that are processed, in the order of the walk, each with
its `fn` and `ext`. -/
def candidates (env : Env) (entries : List WalkEntry) : List (Str × Str × Str) :=
  entries.filterMap (fun e =>
    match classify env.target e.path with
    | none => none
    | some (fn, ext) => some (e.path, fn, ext))

/-- The three names line 108 records for a processed path. -/
def entryNames (c : Str × Str × Str) : Str × Str × Str :=
  (Base c.2.1, Base (smallFn c.2.1 c.2.2), Base (thmFn c.2.1 c.2.2))

/-- The three names an entry carries. -/
def pixNames (p : Pix) : Str × Str × Str := (p.Filename, p.Small, p.Thumbnail)

/-! ## A concrete environment

Used to evaluate the program on explicit inputs. -/

/-- An environment in which every file call is permitted; a file whose bytes
start with `JPEG` or `PNG` decodes to a 1000x800 image of that format, any other
file does not decode. -/
def demoEnvAt (cwd target : Str) : Env where
  cwd := cwd
  target := target
  cpuprofile := []
  profileData := "profile".toList
  small_w := 800
  small_h := 800
  thm_w := 256
  thm_h := 256
  title := "Album".toList
  today := "2024-05-01".toList
  now := 100
  mkdirAllOk := fun _ => true
  removeOk := fun _ => true
  linkOk := fun _ _ => true
  copyOutcome := fun _ _ => .copied
  openOk := fun _ => true
  createOk := fun _ => true
  decode := fun bytes =>
    if startsWith bytes "JPEG".toList then some (⟨1000, 800, bytes.length, true⟩, "jpeg".toList)
    else if startsWith bytes "PNG".toList then some (⟨1000, 800, bytes.length, true⟩, "png".toList)
    else none
  exifCopyright := fun _ => none
  resizeThumbnail := fun w h img => ⟨min w img.width, min h img.height, img.pixels, img.subImager⟩
  resize := fun w h img => ⟨w, h, img.pixels, img.subImager⟩
  smartcrop := fun _ w h => some ⟨0, 0, w, h⟩
  subImage := fun img _ => img
  encodeJpeg := fun _ => "jpeg-bytes".toList
  encodePng := fun _ => "png-bytes".toList

/-- The same environment when every path is relative to one working directory
that is not named: files are then identified by their cleaned relative path. -/
def demoEnv (target : Str) : Env := demoEnvAt [] target

/-- A file system given by the list of its files. -/
def fsOf : List (Str × File) → FS
  | [] => fun _ => none
  | (p, f) :: rest => fun q => if q = p then some f else fsOf rest q

/-- A state with the given files, no entries and no recorded calls. -/
def worldOf (files : List (Str × File)) : World := ⟨fsOf files, [], []⟩

/-- One source photo `a.jpg` next to the program, nothing else. -/
def onePhoto : World := worldOf [("a.jpg".toList, ⟨"JPEG-a".toList, 10⟩)]

/-- A derivative left by an earlier run, picked up by a later walk. -/
def withDerivative : World :=
  worldOf [("sub/foo_thm.PNG".toList, ⟨"PNG-thumb".toList, 7⟩)]

/-- A photo whose name holds its extension twice. -/
def doubledExt : World := worldOf [("a.jpg.jpg".toList, ⟨"JPEG-a".toList, 10⟩)]

/-- The photo `a.jpg` with both derivatives already in `out`, the small file
and the thumbnail file carrying the given modification times. -/
def withDerivatives (smallTime thmTime : Nat) : World :=
  worldOf [("a.jpg".toList, ⟨"JPEG-a".toList, 10⟩),
    ("out/a_small.jpg".toList, ⟨"old-small".toList, smallTime⟩),
    ("out/a_thm.jpg".toList, ⟨"old-thumb".toList, thmTime⟩)]

/-- Three sources, the second of which is not an image. -/
def threeSources : World :=
  worldOf [("a.jpg".toList, ⟨"JPEG-a".toList, 10⟩),
    ("bad.jpg".toList, ⟨"oops".toList, 10⟩),
    ("c.png".toList, ⟨"PNG-c".toList, 10⟩)]

/-- The walk over the three sources. -/
def threeWalk : List WalkEntry :=
  [⟨"a.jpg".toList, 10, none⟩, ⟨"bad.jpg".toList, 10, none⟩, ⟨"c.png".toList, 10, none⟩]

/-- Two photos and a text file. -/
def twoPhotos : World :=
  worldOf [("a.jpg".toList, ⟨"JPEG-a".toList, 10⟩),
    ("notes.txt".toList, ⟨"text".toList, 10⟩),
    ("c.png".toList, ⟨"PNG-c".toList, 10⟩)]

/-- The walk over the two photos and the text file. -/
def twoPhotosWalk : List WalkEntry :=
  [⟨"a.jpg".toList, 10, none⟩, ⟨"notes.txt".toList, 10, none⟩, ⟨"c.png".toList, 10, none⟩]

/-- No photo at all, and an index left in `out` by an earlier run. -/
def oldIndex : World :=
  worldOf [("README.md".toList, ⟨"text".toList, 10⟩),
    ("out/index.md".toList, ⟨"old manifest".toList, 5⟩)]

/-- The walk that finds only the text file. -/
def noPhotoWalk : List WalkEntry := [⟨"README.md".toList, 10, none⟩]

/-- The photo directory `/home/u/photos` as working directory, with the output
directory `../gallery` beside it. -/
def galleryEnv : Env := demoEnvAt "/home/u/photos".toList "../gallery".toList

/-- The same, when `os.Create` is refused on the small file of `a.jpg`. -/
def lockedEnv : Env :=
  { galleryEnv with createOk := fun p => !decide (p = "../gallery/a_small.jpg".toList) }

/-- The same, run with `-cpuprofile ../cpu.prof`: the profile file lies outside
the walked directory. -/
def profiledEnv : Env := { galleryEnv with cpuprofile := "../cpu.prof".toList }

/-- Two photos and a text file in the photo directory; no gallery yet. -/
def photoDir : World :=
  worldOf [("/home/u/photos/a.jpg".toList, ⟨"JPEG-a".toList, 10⟩),
    ("/home/u/photos/c.png".toList, ⟨"PNG-c".toList, 12⟩),
    ("/home/u/photos/notes.txt".toList, ⟨"text".toList, 11⟩)]

/-- The walk of the photo directory: the root, then its files in name order. -/
def photoDirWalk : List WalkEntry :=
  [⟨".".toList, 12, none⟩, ⟨"a.jpg".toList, 10, none⟩, ⟨"c.png".toList, 12, none⟩,
    ⟨"notes.txt".toList, 11, none⟩]

/-- A photo directory whose second file is not an image. -/
def brokenDir : World :=
  worldOf [("/home/u/photos/a.jpg".toList, ⟨"JPEG-a".toList, 10⟩),
    ("/home/u/photos/bad.jpg".toList, ⟨"oops".toList, 11⟩),
    ("/home/u/photos/c.png".toList, ⟨"PNG-c".toList, 12⟩)]

/-- A directory without photos, and the index an earlier run left in the
gallery. -/
def emptyDir : World :=
  worldOf [("/home/u/photos/README.md".toList, ⟨"text".toList, 10⟩),
    ("/home/u/gallery/index.md".toList, ⟨"old manifest".toList, 5⟩)]

/-- The walk of the directory without photos. -/
def emptyDirWalk : List WalkEntry := [⟨".".toList, 10, none⟩, ⟨"README.md".toList, 10, none⟩]

/-- The photo `a.jpg` (time 10) with the gallery an earlier run left: the
full-size copy, and the small file and the thumbnail file with the given
modification times. -/
def galleryOf (smallTime thmTime : Nat) : World :=
  worldOf [("/home/u/photos/a.jpg".toList, ⟨"JPEG-a".toList, 10⟩),
    ("/home/u/gallery/a.jpg".toList, ⟨"JPEG-a".toList, 10⟩),
    ("/home/u/gallery/a_small.jpg".toList, ⟨"old-small".toList, smallTime⟩),
    ("/home/u/gallery/a_thm.jpg".toList, ⟨"old-thumb".toList, thmTime⟩),
    ("/home/u/gallery/index.md".toList, ⟨"old manifest".toList, 40⟩)]

/-- The walk of the directory that holds `a.jpg` alone. -/
def onePhotoWalk : List WalkEntry := [⟨".".toList, 10, none⟩, ⟨"a.jpg".toList, 10, none⟩]

/-! ## Lemmas on strings -/

theorem startsWith_nil (s : Str) : startsWith s [] = true := by
  cases s <;> rfl

theorem startsWith_iff (s p : Str) : startsWith s p = true ↔ ∃ t, s = p ++ t := by
  induction p generalizing s with
  | nil => simp [startsWith_nil]
  | cons x xs ih =>
    cases s with
    | nil => simp [startsWith]
    | cons c cs =>
      simp only [startsWith, Bool.and_eq_true, decide_eq_true_eq, ih, List.cons_append,
        List.cons.injEq]
      constructor
      · rintro ⟨rfl, t, rfl⟩
        exact ⟨t, rfl, rfl⟩
      · rintro ⟨t, rfl, rfl⟩
        exact ⟨rfl, t, rfl⟩

theorem startsWith_append (p t : Str) : startsWith (p ++ t) p = true :=
  (startsWith_iff _ _).2 ⟨t, rfl⟩

theorem Contains_iff (s sub : Str) : Contains s sub = true ↔ ∃ a b, s = a ++ sub ++ b := by
  induction s with
  | nil =>
    simp only [Contains, List.isEmpty_iff]
    constructor
    · rintro rfl
      exact ⟨[], [], rfl⟩
    · rintro ⟨a, b, h⟩
      have h1 := congrArg List.length h
      simp at h1
      exact List.length_eq_zero.1 (by omega)
  | cons c cs ih =>
    simp only [Contains, Bool.or_eq_true, startsWith_iff, ih]
    constructor
    · rintro (⟨t, h⟩ | ⟨a, b, h⟩)
      · exact ⟨[], t, by simpa using h⟩
      · exact ⟨c :: a, b, by simp [h]⟩
    · rintro ⟨a, b, h⟩
      cases a with
      | nil => exact Or.inl ⟨b, by simpa using h⟩
      | cons x a =>
        simp only [List.cons_append, List.cons.injEq] at h
        exact Or.inr ⟨a, b, h.2⟩

theorem Contains_mid (a sub b : Str) : Contains (a ++ sub ++ b) sub = true :=
  (Contains_iff _ _).2 ⟨a, b, rfl⟩

theorem Contains_append_left (a s sub : Str) (h : Contains s sub = true) :
    Contains (a ++ s) sub = true := by
  obtain ⟨x, y, rfl⟩ := (Contains_iff _ _).1 h
  exact (Contains_iff _ _).2 ⟨a ++ x, y, by simp⟩

theorem Contains_false_of_append (a s sub : Str) (h : Contains (a ++ s) sub = false) :
    Contains s sub = false := by
  cases hc : Contains s sub with
  | false => rfl
  | true => rw [Contains_append_left a s sub hc] at h; exact absurd h (by simp)

/-- A match of `p` that starts inside `a` cannot run over a character that `p`
does not have. -/
theorem startsWith_of_append (a t p : Str) (x : Char) (hx : x ∉ p)
    (h : startsWith (a ++ x :: t) p = true) : startsWith a p = true := by
  induction a generalizing p with
  | nil =>
    cases p with
    | nil => rfl
    | cons y ps =>
      simp only [List.nil_append, startsWith, Bool.and_eq_true, decide_eq_true_eq] at h
      exact absurd (h.1 ▸ List.mem_cons_self _ _) hx
  | cons c cs ih =>
    cases p with
    | nil => rfl
    | cons y ps =>
      simp only [List.cons_append, startsWith, Bool.and_eq_true, decide_eq_true_eq] at h ⊢
      exact ⟨h.1, ih ps (fun hm => hx (List.mem_cons_of_mem _ hm)) h.2⟩

theorem startsWith_append_right (a b p : Str) (h : startsWith a p = true) :
    startsWith (a ++ b) p = true := by
  obtain ⟨t, rfl⟩ := (startsWith_iff _ _).1 h
  exact (startsWith_iff _ _).2 ⟨t ++ b, by simp⟩

/-- The suffix `LastIndexDot` selects: it starts at a dot and has no other. -/
theorem LastIndexDot_some (s : Str) (i : Nat) (h : LastIndexDot s = some i) :
    ∃ pre r, s = pre ++ '.' :: r ∧ '.' ∉ r ∧ s.drop i = '.' :: r := by
  induction s generalizing i with
  | nil => simp [LastIndexDot] at h
  | cons c cs ih =>
    simp only [LastIndexDot] at h
    cases hcs : LastIndexDot cs with
    | some k =>
      rw [hcs] at h
      simp only [Option.some.injEq] at h
      subst h
      obtain ⟨pre, r, h1, h2, h3⟩ := ih k hcs
      exact ⟨c :: pre, r, by simp [h1], h2, by simpa using h3⟩
    | none =>
      rw [hcs] at h
      simp only at h
      split at h
      · rename_i hc
        simp only [Option.some.injEq] at h
        subst h
        subst hc
        refine ⟨[], cs, rfl, ?_, rfl⟩
        intro hm
        clear ih
        induction cs with
        | nil => simp at hm
        | cons d ds ihd =>
          simp only [LastIndexDot] at hcs
          cases hds : LastIndexDot ds with
          | some k => rw [hds] at hcs; simp at hcs
          | none =>
            rw [hds] at hcs
            simp only at hcs
            split at hcs
            · simp at hcs
            · rename_i hd
              rcases List.mem_cons.1 hm with h | h
              · exact hd h.symm
              · exact ihd hds h
      · simp at h

/-- A string splits at its last dot in one way only. -/
theorem last_dot_unique (a b r1 r2 : Str) (h1 : '.' ∉ r1) (h2 : '.' ∉ r2)
    (h : a ++ '.' :: r1 = b ++ '.' :: r2) : a = b ∧ r1 = r2 := by
  rcases List.append_eq_append_iff.1 h with ⟨x, hx, hy⟩ | ⟨x, hx, hy⟩
  · cases x with
    | nil => simp at hx hy; exact ⟨hx.symm, hy⟩
    | cons c x =>
      simp only [List.cons_append, List.cons.injEq] at hy
      exact absurd (by rw [hy.2]; simp) h1
  · cases x with
    | nil => simp at hx hy; exact ⟨hx, hy.symm⟩
    | cons c x =>
      simp only [List.cons_append, List.cons.injEq] at hy
      exact absurd (by rw [hy.2]; simp) h2

/-! ## Lemmas on `Replace` -/

theorem replaceGo_skip (old new a t : Str) :
    replaceGo old new a.length (a ++ t) = replaceGo old new 0 t := by
  induction a with
  | nil => rfl
  | cons c cs ih => simpa [replaceGo] using ih

theorem Replace_nil (old new : Str) (hold : old ≠ []) : Replace [] old new = [] := by
  cases old with
  | nil => exact absurd rfl hold
  | cons o os => simp [Replace, replaceGo]

theorem Replace_hit (old new t : Str) (hold : old ≠ []) :
    Replace (old ++ t) old new = new ++ Replace t old new := by
  cases old with
  | nil => exact absurd rfl hold
  | cons o os =>
    have h : startsWith (o :: (os ++ t)) (o :: os) = true := startsWith_append (o :: os) t
    show replaceGo (o :: os) new 0 (o :: (os ++ t)) = new ++ replaceGo (o :: os) new 0 t
    rw [replaceGo, if_pos h]
    simp only [List.length_cons, Nat.add_sub_cancel]
    rw [replaceGo_skip]

theorem Replace_miss (old new : Str) (c : Char) (cs : Str)
    (h : startsWith (c :: cs) old = false) :
    Replace (c :: cs) old new = c :: Replace cs old new := by
  simp [Replace, replaceGo, h]

/-- Induction along the scan `Replace` makes: at a match of `old` the scan
jumps over it, elsewhere it moves by one character. -/
theorem scan_induction (old : Str) (hold : old ≠ []) {motive : Str → Prop}
    (nil : motive [])
    (hit : ∀ t, motive t → motive (old ++ t))
    (miss : ∀ c cs, startsWith (c :: cs) old = false → motive cs → motive (c :: cs)) :
    ∀ s, motive s := by
  intro s
  generalize hn : s.length = n
  induction n using Nat.strong_induction_on generalizing s with
  | _ n ih =>
    cases s with
    | nil => exact nil
    | cons c cs =>
      cases hs : startsWith (c :: cs) old with
      | false => exact miss c cs hs (ih cs.length (by simp [← hn]) cs rfl)
      | true =>
        obtain ⟨t, ht⟩ := (startsWith_iff _ _).1 hs
        rw [ht]
        refine hit t (ih t.length ?_ t rfl)
        have h1 := congrArg List.length ht
        have h2 : 0 < old.length := List.length_pos.2 hold
        simp only [List.length_cons, List.length_append] at h1
        simp only [List.length_cons] at hn
        omega

/-- The three shapes a scanned string has. -/
theorem scan_cases (old s : Str) :
    s = [] ∨ (∃ t, s = old ++ t) ∨ (∃ c cs, s = c :: cs ∧ startsWith (c :: cs) old = false) := by
  cases s with
  | nil => exact Or.inl rfl
  | cons c cs =>
    cases hs : startsWith (c :: cs) old with
    | false => exact Or.inr (Or.inr ⟨c, cs, rfl, hs⟩)
    | true => exact Or.inr (Or.inl ((startsWith_iff _ _).1 hs))

/-- Replacing in a string that ends in `old`: the final occurrence is replaced
on its own, when `old` is a dot followed by characters other than a dot. -/
theorem Replace_suffix (pre r new : Str) (hr : '.' ∉ r) :
    Replace (pre ++ '.' :: r) ('.' :: r) new = Replace pre ('.' :: r) new ++ new := by
  have hold : ('.' :: r : Str) ≠ [] := by simp
  refine scan_induction ('.' :: r) hold (motive := fun pre =>
    Replace (pre ++ '.' :: r) ('.' :: r) new = Replace pre ('.' :: r) new ++ new) ?_ ?_ ?_ pre
  · have h := Replace_hit ('.' :: r) new [] hold
    simp only [List.append_nil] at h
    simp [h, Replace_nil _ _ hold]
  · intro t ih
    rw [List.append_assoc, Replace_hit _ _ _ hold, ih, Replace_hit _ _ _ hold, List.append_assoc]
  · intro c cs hmiss ih
    have h2 : startsWith (c :: (cs ++ '.' :: r)) ('.' :: r) = false := by
      cases h : startsWith (c :: (cs ++ '.' :: r)) ('.' :: r) with
      | false => rfl
      | true =>
        simp only [startsWith, Bool.and_eq_true, decide_eq_true_eq] at h
        have h3 := startsWith_of_append cs r r '.' hr h.2
        simp [startsWith, h.1, h3] at hmiss
    rw [List.cons_append, Replace_miss _ _ _ _ h2, ih, Replace_miss _ _ _ _ hmiss,
      List.cons_append]

/-- The replacement is made on each side of a character `old` does not have. -/
theorem Replace_split (a b old new : Str) (x : Char) (hold : old ≠ []) (hx : x ∉ old) :
    Replace (a ++ x :: b) old new = Replace a old new ++ x :: Replace b old new := by
  refine scan_induction old hold (motive := fun a =>
    Replace (a ++ x :: b) old new = Replace a old new ++ x :: Replace b old new) ?_ ?_ ?_ a
  · have h : startsWith (x :: b) old = false := by
      cases old with
      | nil => exact absurd rfl hold
      | cons o os =>
        simp only [startsWith, Bool.and_eq_false_iff, decide_eq_false_iff_not]
        exact Or.inl (fun h => hx (h ▸ List.mem_cons_self _ _))
    simp [Replace_miss _ _ _ _ h, Replace_nil _ _ hold]
  · intro t ih
    rw [List.append_assoc, Replace_hit _ _ _ hold, ih, Replace_hit _ _ _ hold, List.append_assoc]
  · intro c cs hmiss ih
    have h2 : startsWith (c :: (cs ++ x :: b)) old = false := by
      cases h : startsWith (c :: (cs ++ x :: b)) old with
      | false => rfl
      | true =>
        have h3 := startsWith_of_append (c :: cs) b old x hx h
        rw [h3] at hmiss
        exact absurd hmiss (by simp)
    rw [List.cons_append, Replace_miss _ _ _ _ h2, ih, Replace_miss _ _ _ _ hmiss,
      List.cons_append]

theorem mem_Replace (s old new : Str) (hold : old ≠ []) (x : Char)
    (h : x ∈ Replace s old new) : x ∈ s ∨ x ∈ new := by
  revert h
  refine scan_induction old hold (motive := fun s =>
    x ∈ Replace s old new → x ∈ s ∨ x ∈ new) ?_ ?_ ?_ s
  · simp [Replace_nil _ _ hold]
  · intro t ih h
    rw [Replace_hit _ _ _ hold, List.mem_append] at h
    rcases h with h | h
    · exact Or.inr h
    · rcases ih h with h | h
      · exact Or.inl (List.mem_append_right _ h)
      · exact Or.inr h
  · intro c cs hmiss ih h
    rw [Replace_miss _ _ _ _ hmiss, List.mem_cons] at h
    rcases h with h | h
    · exact Or.inl (h ▸ List.mem_cons_self _ _)
    · rcases ih h with h | h
      · exact Or.inl (List.mem_cons_of_mem _ h)
      · exact Or.inr h

/-- Reading the output of `Replace` back: a piece of output that does not hold
the first character of `new` was copied from the input. -/
theorem Replace_peel (old new' a rest : Str) (n0 : Char) (hold : old ≠ []) (ha : n0 ∉ a) :
    ∀ y, Replace y old (n0 :: new') = a ++ rest →
      ∃ y', y = a ++ y' ∧ Replace y' old (n0 :: new') = rest := by
  induction a with
  | nil => intro y h; exact ⟨y, rfl, h⟩
  | cons c a ih =>
    intro y h
    rcases scan_cases old y with rfl | ⟨t, rfl⟩ | ⟨d, ds, rfl, hmiss⟩
    · rw [Replace_nil _ _ hold] at h
      simp at h
    · rw [Replace_hit _ _ _ hold] at h
      simp only [List.cons_append, List.cons.injEq] at h
      exact absurd (h.1 ▸ List.mem_cons_self _ _) ha
    · rw [Replace_miss _ _ _ _ hmiss] at h
      simp only [List.cons_append, List.cons.injEq] at h
      obtain ⟨y', hy, hy'⟩ := ih (fun hm => ha (List.mem_cons_of_mem _ hm)) ds h.2
      exact ⟨y', by simp [h.1, hy], hy'⟩

/-- On names free of the marker `_<m'>.`, inserting `_<m'>` before every
occurrence of the extension loses nothing. -/
theorem Replace_inj (d : Char) (r m' : Str) (hd : d ≠ '_') (hm' : '_' ∉ m') (x1 x2 : Str)
    (h1 : Contains x1 ('_' :: m' ++ [d]) = false) (h2 : Contains x2 ('_' :: m' ++ [d]) = false)
    (h : Replace x1 (d :: r) ('_' :: m' ++ d :: r) = Replace x2 (d :: r) ('_' :: m' ++ d :: r)) :
    x1 = x2 := by
  have hold : (d :: r : Str) ≠ [] := by simp
  have ha : '_' ∉ m' ++ [d] := by
    simp only [List.mem_append, List.mem_singleton, not_or]
    exact ⟨hm', fun h => hd h.symm⟩
  -- a string whose output starts like a replacement, but which has no match at its head
  have key : ∀ (c : Char) (cs rest : Str),
      c :: Replace cs (d :: r) ('_' :: m' ++ d :: r) = ('_' :: m' ++ d :: r) ++ rest →
      Contains (c :: cs) ('_' :: m' ++ [d]) = true := by
    intro c cs rest hc
    simp only [List.cons_append, List.cons.injEq] at hc
    have hc2 : Replace cs (d :: r) ('_' :: (m' ++ d :: r)) = (m' ++ [d]) ++ (r ++ rest) := by
      rw [hc.2]; simp
    obtain ⟨y', hy, _⟩ := Replace_peel (d :: r) (m' ++ d :: r) (m' ++ [d]) (r ++ rest) '_'
      hold ha cs hc2
    rw [hc.1, hy]
    have := Contains_mid [] ('_' :: m' ++ [d]) y'
    simpa using this
  revert x2 h1
  refine scan_induction (d :: r) hold (motive := fun x1 =>
    ∀ x2, Contains x1 ('_' :: m' ++ [d]) = false → Contains x2 ('_' :: m' ++ [d]) = false →
    Replace x1 (d :: r) ('_' :: m' ++ d :: r) = Replace x2 (d :: r) ('_' :: m' ++ d :: r) →
    x1 = x2) ?_ ?_ ?_ x1
  · intro x2 _ _ h
    rcases scan_cases (d :: r) x2 with rfl | ⟨t, rfl⟩ | ⟨c, cs, rfl, hmiss⟩
    · rfl
    · rw [Replace_nil _ _ hold, Replace_hit _ _ _ hold] at h
      simp at h
    · rw [Replace_nil _ _ hold, Replace_miss _ _ _ _ hmiss] at h
      simp at h
  · intro t ih x2 h1 h2 h
    rcases scan_cases (d :: r) x2 with rfl | ⟨t2, rfl⟩ | ⟨c, cs, rfl, hmiss⟩
    · rw [Replace_nil _ _ hold, Replace_hit _ _ _ hold] at h
      simp at h
    · rw [Replace_hit _ _ _ hold, Replace_hit _ _ _ hold] at h
      have h3 := List.append_cancel_left h
      rw [ih t2 (Contains_false_of_append _ _ _ h1) (Contains_false_of_append _ _ _ h2) h3]
    · rw [Replace_hit _ _ _ hold, Replace_miss _ _ _ _ hmiss] at h
      have := key c cs _ h.symm
      rw [h2] at this
      exact absurd this (by simp)
  · intro c cs hmiss ih x2 h1 h2 h
    rcases scan_cases (d :: r) x2 with rfl | ⟨t2, rfl⟩ | ⟨c2, cs2, rfl, hmiss2⟩
    · rw [Replace_nil _ _ hold, Replace_miss _ _ _ _ hmiss] at h
      simp at h
    · rw [Replace_hit _ _ _ hold, Replace_miss _ _ _ _ hmiss] at h
      have := key c cs _ h
      rw [h1] at this
      exact absurd this (by simp)
    · rw [Replace_miss _ _ _ _ hmiss, Replace_miss _ _ _ _ hmiss2] at h
      simp only [List.cons.injEq] at h
      have e := ih cs2 (Contains_false_of_append [c] cs _ h1)
        (Contains_false_of_append [c2] cs2 _ h2) h.2
      rw [h.1, e]

/-! ## Lemmas on paths -/

theorem splitSlash_ne_nil (s : Str) : splitSlash s ≠ [] := by
  cases s with
  | nil => simp [splitSlash]
  | cons c cs =>
    simp only [splitSlash]
    split
    · simp
    · split <;> simp

theorem splitSlash_append (a n : Str) :
    splitSlash (a ++ '/' :: n) = splitSlash a ++ splitSlash n := by
  induction a with
  | nil => simp [splitSlash]
  | cons c cs ih =>
    by_cases hc : c = '/'
    · simp [splitSlash, hc, ih]
    · cases h : splitSlash cs with
      | nil => exact absurd h (splitSlash_ne_nil cs)
      | cons x xs => simp [splitSlash, hc, ih, h]

theorem splitSlash_noslash (n : Str) (h : '/' ∉ n) : splitSlash n = [n] := by
  induction n with
  | nil => rfl
  | cons c cs ih =>
    simp only [List.mem_cons, not_or] at h
    simp only [splitSlash, ih h.2]
    rw [if_neg (fun e => h.1 e.symm)]

theorem joinSlash_snoc (l : List Str) (n : Str) :
    joinSlash (l ++ [n]) = if l = [] then n else joinSlash l ++ '/' :: n := by
  induction l with
  | nil => simp [joinSlash]
  | cons a l ih =>
    cases l with
    | nil => simp [joinSlash]
    | cons b t =>
      have e : joinSlash ((a :: b :: t) ++ [n]) = a ++ '/' :: joinSlash ((b :: t) ++ [n]) := rfl
      rw [e, ih]
      simp [joinSlash]

theorem cleanStep_fileName (rooted : Bool) (out : List Str) (n : Str) (hn : FileName n) :
    cleanStep rooted out n = n :: out := by
  unfold cleanStep
  rw [if_neg (by rintro (h | h); exact hn.1 h; exact hn.2.2.1 h), if_neg hn.2.2.2]

theorem startsWith_slash_fileName (n : Str) (hn : FileName n) : startsWith n ['/'] = false := by
  cases hs : startsWith n ['/'] with
  | false => rfl
  | true =>
    obtain ⟨t, ht⟩ := (startsWith_iff _ _).1 hs
    exact absurd (by rw [ht]; simp) hn.2.1

/-- Cleaning a file's name alone leaves it as it is. -/
theorem Clean_fileName (n : Str) (hn : FileName n) : Clean n = n := by
  simp only [Clean, if_neg hn.1, startsWith_slash_fileName n hn, splitSlash_noslash n hn.2.1,
    List.foldl_cons, List.foldl_nil, cleanStep_fileName _ _ _ hn, List.nil_append]
  simp [joinSlash, hn.1]

/-- Cleaning a path whose last element is a file's name keeps that name at the
end, preceded by a directory part. -/
theorem Clean_slash_fileName (a n : Str) (hn : FileName n) :
    ∃ p, Clean (a ++ '/' :: n) = p ++ n ∧ DirPart p := by
  simp only [Clean]
  rw [if_neg (by simp)]
  simp only [splitSlash_append, splitSlash_noslash n hn.2.1, List.foldl_append,
    List.foldl_cons, List.foldl_nil, cleanStep_fileName _ _ _ hn, List.reverse_cons,
    joinSlash_snoc]
  generalize (List.foldl (cleanStep (startsWith (a ++ '/' :: n) ['/'])) [] (splitSlash a)).reverse
    = l
  generalize startsWith (a ++ '/' :: n) ['/'] = rooted
  by_cases hl : l = []
  · subst hl
    cases rooted with
    | false => exact ⟨[], by simp [hn.1], Or.inl rfl⟩
    | true => exact ⟨['/'], by simp, Or.inr ⟨[], rfl⟩⟩
  · rw [if_neg hl]
    refine ⟨(if rooted = true then ['/'] else []) ++ joinSlash l ++ ['/'], ?_,
      Or.inr ⟨_, rfl⟩⟩
    rw [if_neg (by simp)]
    simp

theorem Clean_dir_fileName (d n : Str) (hd : DirPart d) (hn : FileName n) :
    ∃ p, Clean (d ++ n) = p ++ n ∧ DirPart p := by
  rcases hd with rfl | ⟨q, rfl⟩
  · exact ⟨[], by simpa using Clean_fileName n hn, Or.inl rfl⟩
  · have e : q ++ ['/'] ++ n = q ++ '/' :: n := by simp
    rw [e]
    exact Clean_slash_fileName q n hn

/-- Joining a directory and a file's name gives a path that ends in the name,
preceded by nothing or by a directory part. -/
theorem Join_fileName (a n : Str) (hn : FileName n) :
    ∃ p, Join a n = p ++ n ∧ DirPart p := by
  by_cases ha : a = []
  · subst ha
    simp only [Join, if_true, if_neg hn.1]
    exact ⟨[], by simpa using Clean_fileName n hn, Or.inl rfl⟩
  · simp only [Join, if_neg ha]
    exact Clean_slash_fileName a n hn

theorem dropWhile_head_false {α : Type} (p : α → Bool) (c : α) (cs : List α) (h : p c = false) :
    (c :: cs).dropWhile p = c :: cs := by
  simp [List.dropWhile, h]

theorem takeWhile_append_stop {α : Type} (p : α → Bool) (l rest : List α)
    (hl : ∀ x ∈ l, p x = true) (hr : rest = [] ∨ ∃ y ys, rest = y :: ys ∧ p y = false) :
    (l ++ rest).takeWhile p = l := by
  induction l with
  | nil =>
    rcases hr with rfl | ⟨y, ys, rfl, hy⟩
    · rfl
    · simp [List.takeWhile, hy]
  | cons c cs ih =>
    have hc := hl c (List.mem_cons_self _ _)
    rw [List.cons_append, List.takeWhile_cons, if_pos hc,
      ih (fun x hx => hl x (List.mem_cons_of_mem _ hx))]

/-- The base name of a directory part followed by a name is the name. -/
theorem Base_append (p n : Str) (hne : n ≠ []) (hs : '/' ∉ n) (hp : DirPart p) :
    Base (p ++ n) = n := by
  unfold Base
  rw [if_neg (by simp [hne])]
  have hrev : n.reverse ≠ [] := by simpa using hne
  obtain ⟨c, cs, hcs⟩ := List.exists_cons_of_ne_nil hrev
  have hc : c ≠ '/' := by
    intro e
    have : c ∈ n.reverse := by rw [hcs]; exact List.mem_cons_self _ _
    exact hs (e ▸ (List.mem_reverse.1 this))
  have h1 : (p ++ n).reverse.dropWhile (fun c => decide (c = '/')) = n.reverse ++ p.reverse := by
    rw [List.reverse_append, hcs, List.cons_append]
    exact dropWhile_head_false _ _ _ (by simpa using hc)
  have h2 : (n.reverse ++ p.reverse).takeWhile (fun c => !decide (c = '/')) = n.reverse := by
    apply takeWhile_append_stop
    · intro x hx
      have : x ≠ '/' := fun e => hs (e ▸ (List.mem_reverse.1 hx))
      simpa using this
    · rcases hp with rfl | ⟨q, rfl⟩
      · exact Or.inl rfl
      · exact Or.inr ⟨'/', q.reverse, by simp, by simp⟩
  simp only [h1, h2, List.reverse_reverse]
  rw [if_neg hne]

/-- What `Base` returns is `/` or a non-empty string without a slash. -/
theorem Base_shape (path : Str) : Base path = ['/'] ∨ (Base path ≠ [] ∧ '/' ∉ Base path) := by
  unfold Base
  by_cases h : path = []
  · rw [if_pos h]
    exact Or.inr ⟨by simp, by simp⟩
  · rw [if_neg h]
    simp only
    split
    · exact Or.inl rfl
    · rename_i hl
      refine Or.inr ⟨hl, ?_⟩
      intro hm
      have := List.mem_takeWhile_imp (List.mem_reverse.1 hm)
      simp at this

/-! ## Lemmas on classification and derived names -/

/-- The letters after the marker underscore. -/
theorem smallFn_eq (fn ext : Str) :
    smallFn fn ext = Replace fn ext ('_' :: ['s', 'm', 'a', 'l', 'l'] ++ ext) := rfl

theorem thmFn_eq (fn ext : Str) :
    thmFn fn ext = Replace fn ext ('_' :: ['t', 'h', 'm'] ++ ext) := rfl

theorem isPhotoExt_chars (ext : Str) (h : isPhotoExt ext = true) : '/' ∉ ext ∧ '_' ∉ ext := by
  have key : ∀ x ∈ ext, x.toLower ∈ ".jpeg png".toList := by
    intro x hx
    have hm : x.toLower ∈ ToLower ext := List.mem_map_of_mem _ hx
    simp only [isPhotoExt, Bool.or_eq_true, decide_eq_true_eq] at h
    rcases h with (h | h) | h <;> rw [h] at hm <;> revert hm <;>
      generalize x.toLower = y <;> intro hm <;> simp at hm ⊢ <;> tauto
  constructor
  · intro hm
    exact absurd (key _ hm) (by decide)
  · intro hm
    exact absurd (key _ hm) (by decide)

/-- What lines 44-71 establish about a path that is processed. -/
theorem classify_some (target path fn ext : Str) (h : classify target path = some (fn, ext)) :
    fn = Join target (Base path) ∧ Contains fn "_thm.".toList = false
      ∧ Contains fn "_small.".toList = false
      ∧ isPhotoExt ext = true
      ∧ ∃ pre r, fn = pre ++ '.' :: r ∧ ext = '.' :: r ∧ '.' ∉ r := by
  unfold classify at h
  simp only at h
  split at h
  · simp at h
  · rename_i hc
    simp only [Bool.or_eq_true, not_or, Bool.not_eq_true] at hc
    split at h
    · simp at h
    · rename_i i hi
      split at h
      · rename_i hp
        simp only [Option.some.injEq, Prod.mk.injEq] at h
        obtain ⟨pre, r, h1, h2, h3⟩ := LastIndexDot_some _ _ hi
        refine ⟨h.1.symm, ?_, ?_, ?_, pre, r, ?_, ?_, h2⟩
        · rw [← h.1]; exact hc.1
        · rw [← h.1]; exact hc.2
        · rw [← h.2]; exact hp
        · rw [← h.1]; exact h1
        · rw [← h.2]; exact h3
      · simp at h

theorem classify_none_of_marker (target path : Str)
    (h : Contains (Join target (Base path)) "_thm.".toList = true
      ∨ Contains (Join target (Base path)) "_small.".toList = true) :
    classify target path = none := by
  unfold classify
  simp only
  rw [if_pos (by simpa using h)]

/-- The derived name ends in the marker word and the extension. -/
theorem derived_shape (m pre r : Str) (hr : '.' ∉ r) :
    Replace (pre ++ '.' :: r) ('.' :: r) (m ++ '.' :: r)
      = (Replace pre ('.' :: r) (m ++ '.' :: r) ++ m) ++ '.' :: r := by
  rw [Replace_suffix pre r _ hr]
  simp

theorem derived_has_marker (m pre r : Str) (hr : '.' ∉ r) :
    Contains (Replace (pre ++ '.' :: r) ('.' :: r) (m ++ '.' :: r)) (m ++ ['.']) = true := by
  rw [Replace_suffix pre r _ hr]
  have := Contains_mid (Replace pre ('.' :: r) (m ++ '.' :: r)) (m ++ ['.']) r
  simpa using this

theorem small_thm_clash (a b : Str) :
    a ++ ['_', 's', 'm', 'a', 'l', 'l'] ≠ b ++ ['_', 't', 'h', 'm'] := by
  intro h
  have := congrArg List.reverse h
  simp at this

/-- The small name and the thumbnail name of a processed path differ from each
other and from `fn`, and each holds its marker. -/
theorem derived_distinct (target path fn ext : Str)
    (h : classify target path = some (fn, ext)) :
    Contains (smallFn fn ext) "_small.".toList = true
      ∧ Contains (thmFn fn ext) "_thm.".toList = true
      ∧ smallFn fn ext ≠ fn ∧ thmFn fn ext ≠ fn ∧ smallFn fn ext ≠ thmFn fn ext := by
  obtain ⟨_, hct, hcs, _, pre, r, hfn, hext, hr⟩ := classify_some _ _ _ _ h
  have hs : Contains (smallFn fn ext) "_small.".toList = true := by
    rw [smallFn_eq, hfn, hext]
    exact derived_has_marker ['_', 's', 'm', 'a', 'l', 'l'] pre r hr
  have ht : Contains (thmFn fn ext) "_thm.".toList = true := by
    rw [thmFn_eq, hfn, hext]
    exact derived_has_marker ['_', 't', 'h', 'm'] pre r hr
  refine ⟨hs, ht, ?_, ?_, ?_⟩
  · intro e
    rw [e, hcs] at hs
    exact absurd hs (by simp)
  · intro e
    rw [e, hct] at ht
    exact absurd ht (by simp)
  · intro e
    rw [smallFn_eq, thmFn_eq, hfn, hext, derived_shape _ _ _ hr, derived_shape _ _ _ hr] at e
    exact small_thm_clash _ _ (last_dot_unique _ _ _ _ hr hr e).1

/-- For a processed path whose base name is a file's name, `fn` is a directory
part followed by that name, and the extension is a suffix of the name. -/
theorem classify_fileName (target path fn ext : Str)
    (h : classify target path = some (fn, ext)) (hn : FileName (Base path)) :
    ∃ p pre r, DirPart p ∧ fn = p ++ Base path ∧ Base path = pre ++ '.' :: r
      ∧ ext = '.' :: r ∧ '.' ∉ r := by
  obtain ⟨hfn, _, _, hp, pre, r, hsplit, hext, hr⟩ := classify_some _ _ _ _ h
  obtain ⟨p, hj, hd⟩ := Join_fileName target (Base path) hn
  have hslash : '/' ∉ r := by
    have := (isPhotoExt_chars ext hp).1
    rw [hext] at this
    exact fun hm => this (List.mem_cons_of_mem _ hm)
  rw [← hfn] at hj
  have e : pre ++ '.' :: r = p ++ Base path := by rw [← hsplit, hj]
  rcases List.append_eq_append_iff.1 e with ⟨x, hx, hy⟩ | ⟨x, hx, hy⟩
  · -- the dot lies in the directory part: impossible unless that part is `pre`
    cases x with
    | nil =>
      simp only [List.append_nil, List.nil_append] at hx hy
      exact ⟨p, [], r, hd, hj, by simpa using hy.symm, hext, hr⟩
    | cons c x =>
      exfalso
      rcases hd with rfl | ⟨q, rfl⟩
      · simp at hx
      · have hmem : '/' ∈ c :: x := by
          have h1 := congrArg List.reverse hx
          simp only [List.reverse_append, List.reverse_cons, List.reverse_nil, List.nil_append,
            List.singleton_append] at h1
          have h2 : (x.reverse ++ [c]) ++ pre.reverse = '/' :: q.reverse := by
            rw [← h1]
          cases hxr : x.reverse with
          | nil =>
            rw [hxr] at h2
            simp only [List.nil_append, List.singleton_append, List.cons.injEq] at h2
            rw [h2.1]; simp
          | cons y ys =>
            rw [hxr] at h2
            simp only [List.cons_append, List.cons.injEq] at h2
            have : y ∈ x.reverse := by rw [hxr]; simp
            rw [← h2.1]
            exact List.mem_cons_of_mem _ (List.mem_reverse.1 this)
        have hsub : '/' ∈ ('.' :: r : Str) := by
          rw [hy]; exact List.mem_append_left _ hmem
        simp only [List.mem_cons] at hsub
        rcases hsub with hsub | hsub
        · exact absurd hsub (by decide)
        · exact hslash hsub
  · exact ⟨p, x, r, hd, hj, hy, hext, hr⟩

theorem derived_base (m p n pre r : Str) (hm : '/' ∉ m) (hd : DirPart p)
    (hn : n = pre ++ '.' :: r) (hs : '/' ∉ n) (hr : '.' ∉ r) :
    Base (Replace (p ++ n) ('.' :: r) (m ++ '.' :: r)) = Replace n ('.' :: r) (m ++ '.' :: r) := by
  have hold : ('.' :: r : Str) ≠ [] := by simp
  have hso : '/' ∉ ('.' :: r : Str) := by
    intro hmem
    exact hs (by rw [hn]; exact List.mem_append_right _ hmem)
  have hne : Replace n ('.' :: r) (m ++ '.' :: r) ≠ [] := by
    rw [hn, derived_shape _ _ _ hr]
    simp
  have hns : '/' ∉ Replace n ('.' :: r) (m ++ '.' :: r) := by
    intro hmem
    rcases mem_Replace _ _ _ hold _ hmem with h | h
    · exact hs h
    · rcases List.mem_append.1 h with h | h
      · exact hm h
      · exact hso h
  rcases hd with rfl | ⟨q, rfl⟩
  · simpa using Base_append [] _ hne hns (Or.inl rfl)
  · have e : q ++ ['/'] ++ n = q ++ '/' :: n := by simp
    rw [e, Replace_split q n _ _ '/' hold hso]
    have e2 : Replace q ('.' :: r) (m ++ '.' :: r) ++ '/' :: Replace n ('.' :: r) (m ++ '.' :: r)
        = (Replace q ('.' :: r) (m ++ '.' :: r) ++ ['/']) ++ Replace n ('.' :: r) (m ++ '.' :: r) := by
      simp
    rw [e2]
    exact Base_append _ _ hne hns (Or.inr ⟨_, rfl⟩)

/-- The relations between the names derived from two processed paths whose base
names are names of files. -/
theorem names_core (target p1 p2 fn1 e1 fn2 e2 : Str)
    (h1 : classify target p1 = some (fn1, e1)) (h2 : classify target p2 = some (fn2, e2))
    (hf1 : FileName (Base p1)) (hf2 : FileName (Base p2)) :
    (Base (smallFn fn1 e1) = Base (smallFn fn2 e2) → Base p1 = Base p2)
      ∧ (Base (thmFn fn1 e1) = Base (thmFn fn2 e2) → Base p1 = Base p2)
      ∧ Base (smallFn fn1 e1) ≠ Base (thmFn fn2 e2)
      ∧ Base (smallFn fn1 e1) ≠ Base p2
      ∧ Base fn1 = Base p1 := by
  obtain ⟨_, hct1, hcs1, _, _⟩ := classify_some _ _ _ _ h1
  obtain ⟨_, hct2, hcs2, _, _⟩ := classify_some _ _ _ _ h2
  obtain ⟨d1, pre1, r1, hd1, hfn1, hn1, hext1, hr1⟩ := classify_fileName _ _ _ _ h1 hf1
  obtain ⟨d2, pre2, r2, hd2, hfn2, hn2, hext2, hr2⟩ := classify_fileName _ _ _ _ h2 hf2
  have hms : '/' ∉ ['_', 's', 'm', 'a', 'l', 'l'] := by decide
  have hmt : '/' ∉ ['_', 't', 'h', 'm'] := by decide
  have bs1 : Base (smallFn fn1 e1) = Replace (Base p1) ('.' :: r1) (['_', 's', 'm', 'a', 'l', 'l'] ++ '.' :: r1) := by
    rw [smallFn_eq, hfn1, hext1]
    exact derived_base _ d1 _ pre1 r1 hms hd1 hn1 hf1.2.1 hr1
  have bs2 : Base (smallFn fn2 e2) = Replace (Base p2) ('.' :: r2) (['_', 's', 'm', 'a', 'l', 'l'] ++ '.' :: r2) := by
    rw [smallFn_eq, hfn2, hext2]
    exact derived_base _ d2 _ pre2 r2 hms hd2 hn2 hf2.2.1 hr2
  have bt1 : Base (thmFn fn1 e1) = Replace (Base p1) ('.' :: r1) (['_', 't', 'h', 'm'] ++ '.' :: r1) := by
    rw [thmFn_eq, hfn1, hext1]
    exact derived_base _ d1 _ pre1 r1 hmt hd1 hn1 hf1.2.1 hr1
  have bt2 : Base (thmFn fn2 e2) = Replace (Base p2) ('.' :: r2) (['_', 't', 'h', 'm'] ++ '.' :: r2) := by
    rw [thmFn_eq, hfn2, hext2]
    exact derived_base _ d2 _ pre2 r2 hmt hd2 hn2 hf2.2.1 hr2
  -- the names themselves are free of both markers
  have cs1 : Contains (Base p1) "_small.".toList = false :=
    Contains_false_of_append d1 _ _ (hfn1 ▸ hcs1)
  have cs2 : Contains (Base p2) "_small.".toList = false :=
    Contains_false_of_append d2 _ _ (hfn2 ▸ hcs2)
  have ct1 : Contains (Base p1) "_thm.".toList = false :=
    Contains_false_of_append d1 _ _ (hfn1 ▸ hct1)
  have ct2 : Contains (Base p2) "_thm.".toList = false :=
    Contains_false_of_append d2 _ _ (hfn2 ▸ hct2)
  refine ⟨?_, ?_, ?_, ?_, ?_⟩
  · intro e
    rw [bs1, bs2] at e
    have e' := e
    rw [hn1, hn2, derived_shape _ _ _ hr1, derived_shape _ _ _ hr2] at e'
    have hrr := (last_dot_unique _ _ _ _ hr1 hr2 e').2
    subst hrr
    exact Replace_inj '.' r1 ['s', 'm', 'a', 'l', 'l'] (by decide) (by decide) _ _ cs1 cs2 e
  · intro e
    rw [bt1, bt2] at e
    have e' := e
    rw [hn1, hn2, derived_shape _ _ _ hr1, derived_shape _ _ _ hr2] at e'
    have hrr := (last_dot_unique _ _ _ _ hr1 hr2 e').2
    subst hrr
    exact Replace_inj '.' r1 ['t', 'h', 'm'] (by decide) (by decide) _ _ ct1 ct2 e
  · intro e
    rw [bs1, bt2, hn1, hn2, derived_shape _ _ _ hr1, derived_shape _ _ _ hr2] at e
    exact small_thm_clash _ _ (last_dot_unique _ _ _ _ hr1 hr2 e).1
  · intro e
    have hc : Contains (Base (smallFn fn1 e1)) "_small.".toList = true := by
      rw [bs1, hn1]
      exact derived_has_marker ['_', 's', 'm', 'a', 'l', 'l'] pre1 r1 hr1
    rw [e, cs2] at hc
    exact absurd hc (by simp)
  · rw [hfn1]
    exact Base_append _ _ hf1.1 hf1.2.1 hd1


/-! ## Lemmas on the files that paths name -/

theorem fileName_of_marker (n : Str)
    (h : Contains n "_small.".toList = true ∨ Contains n "_thm.".toList = true)
    (hs : n = ['/'] ∨ (n ≠ [] ∧ '/' ∉ n)) : FileName n := by
  rcases hs with rfl | ⟨h1, h2⟩
  · revert h; decide
  · refine ⟨h1, h2, ?_, ?_⟩ <;> rintro rfl <;> revert h <;> decide



/-- Every string splits into a directory part and a rest without a slash. -/
theorem split_last_slash (s : Str) : ∃ d m, s = d ++ m ∧ DirPart d ∧ '/' ∉ m := by
  induction s with
  | nil => exact ⟨[], [], rfl, Or.inl rfl, by simp⟩
  | cons c cs ih =>
    obtain ⟨d, m, hs, hd, hm⟩ := ih
    rcases hd with rfl | ⟨q, rfl⟩
    · by_cases hc : c = '/'
      · exact ⟨['/'], m, by simp [hs, hc], Or.inr ⟨[], rfl⟩, hm⟩
      · refine ⟨[], c :: m, by simp [hs], Or.inl rfl, ?_⟩
        simp only [List.mem_cons, not_or]
        exact ⟨fun e => hc e.symm, hm⟩
    · exact ⟨c :: q ++ ['/'], m, by simp [hs], Or.inr ⟨c :: q, rfl⟩, hm⟩

theorem resolve_endsIn (env : Env) (x n : Str) (h : EndsInName x n) :
    EndsInName (env.resolve x) n := by
  obtain ⟨d, hd, rfl, hn⟩ := h
  have key : ∀ y, (∃ p, y = p ++ n ∧ DirPart p) → EndsInName y n := by
    rintro y ⟨p, rfl, hp⟩
    exact ⟨p, hp, rfl, hn⟩
  apply key
  unfold Env.resolve
  split
  · exact Clean_dir_fileName d n hd hn
  · have hne : d ++ n ≠ [] := by simp [hn.1]
    by_cases hc : env.cwd = []
    · simp only [Join, hc, if_true, if_neg hne]
      exact Clean_dir_fileName d n hd hn
    · simp only [Join, if_neg hc]
      rcases hd with rfl | ⟨q, rfl⟩
      · simpa using Clean_slash_fileName env.cwd n hn
      · have e : env.cwd ++ '/' :: (q ++ ['/'] ++ n) = (env.cwd ++ '/' :: q) ++ '/' :: n := by
          simp
        rw [e]
        exact Clean_slash_fileName _ n hn

theorem Base_endsIn (x n : Str) (h : EndsInName x n) : Base x = n := by
  obtain ⟨d, hd, rfl, hn⟩ := h
  exact Base_append d n hn.1 hn.2.1 hd

/-- Paths that end in different file names name different files. -/
theorem resolve_ne (env : Env) (x y n m : Str) (hx : EndsInName x n) (hy : EndsInName y m)
    (hnm : n ≠ m) : env.resolve x ≠ env.resolve y := by
  intro e
  have h1 := Base_endsIn _ _ (resolve_endsIn env x n hx)
  have h2 := Base_endsIn _ _ (resolve_endsIn env y m hy)
  rw [e, h2] at h1
  exact hnm h1.symm

theorem isPhotoExt_tail (r : Str) (h : isPhotoExt ('.' :: r) = true) : r ≠ [] := by
  rintro rfl
  revert h
  decide

/-- For a processed path, `fn` ends in a file name that carries the extension
and neither marker. -/
theorem classify_endsIn (target path fn ext : Str)
    (h : classify target path = some (fn, ext)) :
    ∃ n pre r, EndsInName fn n ∧ n = pre ++ '.' :: r ∧ ext = '.' :: r ∧ '.' ∉ r
      ∧ isPhotoExt ('.' :: r) = true
      ∧ Contains n "_small.".toList = false ∧ Contains n "_thm.".toList = false := by
  obtain ⟨_, hct, hcs, hp, pre0, r, hfn, hext, hr⟩ := classify_some _ _ _ _ h
  obtain ⟨d, m, hpre, hd, hm⟩ := split_last_slash pre0
  rw [hext] at hp
  have hslash : '/' ∉ r := fun hmem =>
    (isPhotoExt_chars _ hp).1 (List.mem_cons_of_mem _ hmem)
  have hrne := isPhotoExt_tail r hp
  have hfn' : fn = d ++ (m ++ '.' :: r) := by rw [hfn, hpre]; simp
  have hname : FileName (m ++ '.' :: r) := by
    refine ⟨by simp, ?_, ?_, ?_⟩
    · simp only [List.mem_append, List.mem_cons, not_or]
      exact ⟨hm, by decide, hslash⟩
    · intro e
      cases m with
      | nil => simp at e; exact hrne e
      | cons c m => simp at e
    · intro e
      cases m with
      | nil =>
        simp only [List.nil_append, List.cons.injEq, true_and] at e
        exact hr (by rw [e]; simp)
      | cons c m =>
        cases m with
        | nil =>
          simp only [List.singleton_append, List.cons.injEq] at e
          exact hrne e.2.2
        | cons c2 m => simp at e
  refine ⟨m ++ '.' :: r, m, r, ⟨d, hd, hfn', hname⟩, rfl, hext, hr, hp, ?_, ?_⟩
  · exact Contains_false_of_append d _ _ (hfn' ▸ hcs)
  · exact Contains_false_of_append d _ _ (hfn' ▸ hct)

/-- A derived path ends in the derived file name, which holds the marker. -/
theorem derived_endsIn (mk fn n pre r : Str) (hm : '/' ∉ mk)
    (hmk : mk = "_small".toList ∨ mk = "_thm".toList)
    (hfn : EndsInName fn n) (hn : n = pre ++ '.' :: r) (hr : '.' ∉ r) :
    EndsInName (Replace fn ('.' :: r) (mk ++ '.' :: r)) (Replace n ('.' :: r) (mk ++ '.' :: r))
      ∧ Contains (Replace n ('.' :: r) (mk ++ '.' :: r)) (mk ++ ['.']) = true := by
  obtain ⟨d, hd, rfl, hname⟩ := hfn
  have hold : ('.' :: r : Str) ≠ [] := by simp
  have hso : '/' ∉ ('.' :: r : Str) := by
    intro hmem
    exact hname.2.1 (by rw [hn]; exact List.mem_append_right _ hmem)
  have hmark : Contains (Replace n ('.' :: r) (mk ++ '.' :: r)) (mk ++ ['.']) = true := by
    rw [hn]
    exact derived_has_marker mk pre r hr
  have hne : Replace n ('.' :: r) (mk ++ '.' :: r) ≠ [] := by
    rw [hn, derived_shape _ _ _ hr]
    simp
  have hns : '/' ∉ Replace n ('.' :: r) (mk ++ '.' :: r) := by
    intro hmem
    rcases mem_Replace _ _ _ hold _ hmem with h | h
    · exact hname.2.1 h
    · rcases List.mem_append.1 h with h | h
      · exact hm h
      · exact hso h
  have hfile : FileName (Replace n ('.' :: r) (mk ++ '.' :: r)) := by
    apply fileName_of_marker _ _ (Or.inr ⟨hne, hns⟩)
    rcases hmk with rfl | rfl
    · exact Or.inl hmark
    · exact Or.inr hmark
  refine ⟨?_, hmark⟩
  rcases hd with rfl | ⟨q, rfl⟩
  · exact ⟨[], Or.inl rfl, by simp, hfile⟩
  · refine ⟨Replace q ('.' :: r) (mk ++ '.' :: r) ++ ['/'], Or.inr ⟨_, rfl⟩, ?_, hfile⟩
    have e : q ++ ['/'] ++ n = q ++ '/' :: n := by simp
    rw [e, Replace_split q n _ _ '/' hold hso]
    simp

/-- The files a call of `thumbnail` handles for a processed path are three
different files, none of them the index file; and no derivative of one
processed path is the full-size copy of another. -/
theorem files_distinct (env : Env) (path fn ext : Str)
    (h : classify env.target path = some (fn, ext)) :
    env.resolve (smallFn fn ext) ≠ env.resolve fn
      ∧ env.resolve (thmFn fn ext) ≠ env.resolve fn
      ∧ env.resolve (smallFn fn ext) ≠ env.resolve (thmFn fn ext)
      ∧ env.resolve fn ≠ env.resolve (indexPath env)
      ∧ env.resolve (smallFn fn ext) ≠ env.resolve (indexPath env)
      ∧ env.resolve (thmFn fn ext) ≠ env.resolve (indexPath env)
      ∧ ∀ path' fn' ext', classify env.target path' = some (fn', ext') →
          env.resolve (smallFn fn' ext') ≠ env.resolve fn
            ∧ env.resolve (thmFn fn' ext') ≠ env.resolve fn := by
  obtain ⟨n, pre, r, hfn, hn, hext, hr, hp, hcs, hct⟩ := classify_endsIn _ _ _ _ h
  obtain ⟨hs, hsm⟩ := derived_endsIn "_small".toList fn n pre r (by decide) (Or.inl rfl) hfn hn hr
  obtain ⟨ht, htm⟩ := derived_endsIn "_thm".toList fn n pre r (by decide) (Or.inr rfl) hfn hn hr
  have hidx : EndsInName (indexPath env) "index.md".toList := by
    obtain ⟨p, hj, hd⟩ := Join_fileName env.target "index.md".toList (by decide)
    exact ⟨p, hd, hj, by decide⟩
  have hsfn : smallFn fn ext = Replace fn ('.' :: r) ("_small".toList ++ '.' :: r) := by
    rw [hext]; rfl
  have htfn : thmFn fn ext = Replace fn ('.' :: r) ("_thm".toList ++ '.' :: r) := by
    rw [hext]; rfl
  rw [← hsfn] at hs
  rw [← htfn] at ht
  -- the names differ
  have n1 : Replace n ('.' :: r) ("_small".toList ++ '.' :: r) ≠ n := by
    intro e
    rw [e] at hsm
    rw [show "_small".toList ++ ['.'] = "_small.".toList from rfl, hcs] at hsm
    exact absurd hsm (by simp)
  have n2 : Replace n ('.' :: r) ("_thm".toList ++ '.' :: r) ≠ n := by
    intro e
    rw [e] at htm
    rw [show "_thm".toList ++ ['.'] = "_thm.".toList from rfl, hct] at htm
    exact absurd htm (by simp)
  have n3 : Replace n ('.' :: r) ("_small".toList ++ '.' :: r)
      ≠ Replace n ('.' :: r) ("_thm".toList ++ '.' :: r) := by
    intro e
    rw [hn, derived_shape _ _ _ hr, derived_shape _ _ _ hr] at e
    exact small_thm_clash _ _ (last_dot_unique _ _ _ _ hr hr e).1
  have n4 : n ≠ "index.md".toList := by
    intro e
    have e2 : pre ++ '.' :: r = ['i', 'n', 'd', 'e', 'x'] ++ '.' :: ['m', 'd'] := by
      rw [← hn, e]; rfl
    have := (last_dot_unique _ _ _ _ hr (by decide) e2).2
    subst this
    revert hp
    decide
  have n5 : Replace n ('.' :: r) ("_small".toList ++ '.' :: r) ≠ "index.md".toList := by
    intro e
    rw [e] at hsm
    revert hsm
    decide
  have n6 : Replace n ('.' :: r) ("_thm".toList ++ '.' :: r) ≠ "index.md".toList := by
    intro e
    rw [e] at htm
    revert htm
    decide
  refine ⟨resolve_ne env _ _ _ _ hs hfn n1, resolve_ne env _ _ _ _ ht hfn n2,
    resolve_ne env _ _ _ _ hs ht n3, resolve_ne env _ _ _ _ hfn hidx n4,
    resolve_ne env _ _ _ _ hs hidx n5, resolve_ne env _ _ _ _ ht hidx n6, ?_⟩
  intro path' fn' ext' h'
  obtain ⟨n', pre', r', hfn', hn', hext', hr', _, _, _⟩ := classify_endsIn _ _ _ _ h'
  obtain ⟨hs', hsm'⟩ := derived_endsIn "_small".toList fn' n' pre' r' (by decide) (Or.inl rfl)
    hfn' hn' hr'
  obtain ⟨ht', htm'⟩ := derived_endsIn "_thm".toList fn' n' pre' r' (by decide) (Or.inr rfl)
    hfn' hn' hr'
  have hsfn' : smallFn fn' ext' = Replace fn' ('.' :: r') ("_small".toList ++ '.' :: r') := by
    rw [hext']; rfl
  have htfn' : thmFn fn' ext' = Replace fn' ('.' :: r') ("_thm".toList ++ '.' :: r') := by
    rw [hext']; rfl
  rw [← hsfn'] at hs'
  rw [← htfn'] at ht'
  constructor
  · apply resolve_ne env _ _ _ _ hs' hfn
    intro e
    rw [e] at hsm'
    rw [show "_small".toList ++ ['.'] = "_small.".toList from rfl, hcs] at hsm'
    exact absurd hsm' (by simp)
  · apply resolve_ne env _ _ _ _ ht' hfn
    intro e
    rw [e] at htm'
    rw [show "_thm".toList ++ ['.'] = "_thm.".toList from rfl, hct] at htm'
    exact absurd htm' (by simp)

/-! ## Lemmas on the file calls -/

theorem FS.set_ne (fs : FS) (p q : Str) (f : Option File) (h : q ≠ p) : fs.set p f q = fs q := by
  simp [FS.set, h]

theorem FS.set_eq (fs : FS) (p : Str) (f : Option File) : fs.set p f p = f := by
  simp [FS.set]

theorem osRemove_spec (env : Env) (p : Str) (w : World) :
    (osRemove env p w).pix = w.pix
      ∧ (∀ q, q ≠ env.resolve p → (osRemove env p w).fs q = w.fs q)
      ∧ (osRemove env p w).trace = w.trace ++ [.remove p] := by
  unfold osRemove
  simp only [World.log]
  split <;> refine ⟨rfl, ?_, rfl⟩ <;> intro q hq
  · exact FS.set_ne _ _ _ _ hq
  · rfl

theorem osLink_spec (env : Env) (src dst : Str) (w : World) :
    (osLink env src dst w).2.pix = w.pix
      ∧ (∀ q, q ≠ env.resolve dst → (osLink env src dst w).2.fs q = w.fs q)
      ∧ (osLink env src dst w).2.trace = w.trace ++ [.link src dst] := by
  unfold osLink
  simp only [World.log]
  split
  · split <;> refine ⟨rfl, ?_, rfl⟩ <;> intro q hq
    · exact FS.set_ne _ _ _ _ hq
    · rfl
  · exact ⟨rfl, fun _ _ => rfl, rfl⟩

theorem CopyFile_spec (env : Env) (src dst : Str) (w : World) :
    (CopyFile env src dst w).2.pix = w.pix
      ∧ (∀ q, q ≠ env.resolve dst → (CopyFile env src dst w).2.fs q = w.fs q)
      ∧ (CopyFile env src dst w).2.trace = w.trace ++ [.copy src dst] := by
  unfold CopyFile
  simp only [World.log]
  split
  · exact ⟨rfl, fun _ _ => rfl, rfl⟩
  · split
    · exact ⟨rfl, fun _ _ => rfl, rfl⟩
    · split
      · exact ⟨rfl, fun q hq => FS.set_ne _ _ _ _ hq, rfl⟩
      · exact ⟨rfl, fun _ _ => rfl, rfl⟩
      · exact ⟨rfl, fun q hq => FS.set_ne _ _ _ _ hq, rfl⟩

theorem osCreate_ok (env : Env) (p : Str) (w : World) (h : env.createOk p = true) :
    osCreate env p w
      = (true, ⟨w.fs.set (env.resolve p) (some ⟨[], env.now⟩), w.pix, w.trace ++ [.create p]⟩) := by
  simp [osCreate, World.log, h]

theorem osCreate_fail (env : Env) (p : Str) (w : World) (h : env.createOk p = false) :
    osCreate env p w = (false, ⟨w.fs, w.pix, w.trace ++ [.create p]⟩) := by
  simp [osCreate, World.log, h]

theorem osCreate_spec (env : Env) (p : Str) (w : World) :
    (osCreate env p w).2.pix = w.pix
      ∧ (∀ q, q ≠ env.resolve p → (osCreate env p w).2.fs q = w.fs q)
      ∧ (osCreate env p w).2.trace = w.trace ++ [.create p] := by
  cases h : env.createOk p with
  | true =>
    rw [osCreate_ok env p w h]
    exact ⟨rfl, fun q hq => FS.set_ne _ _ _ _ hq, rfl⟩
  | false =>
    rw [osCreate_fail env p w h]
    exact ⟨rfl, fun _ _ => rfl, rfl⟩

theorem osCreate_true (env : Env) (p : Str) (w : World) (h : (osCreate env p w).1 = true) :
    (osCreate env p w).2.fs (env.resolve p) = some ⟨[], env.now⟩ := by
  cases hc : env.createOk p with
  | true =>
    rw [osCreate_ok env p w hc]
    exact FS.set_eq _ _ _
  | false =>
    rw [osCreate_fail env p w hc] at h
    simp at h

theorem writeFile_spec (env : Env) (p data : Str) (w : World) :
    (writeFile env p data w).pix = w.pix
      ∧ (∀ q, q ≠ env.resolve p → (writeFile env p data w).fs q = w.fs q)
      ∧ (writeFile env p data w).trace = w.trace ++ [.write p]
      ∧ (writeFile env p data w).fs (env.resolve p) = some ⟨data, env.now⟩ := by
  unfold writeFile
  exact ⟨rfl, fun q hq => FS.set_ne _ _ _ _ hq, rfl, FS.set_eq _ _ _⟩

/-! ## Lemmas on the stages of `thumbnail` -/

theorem passthrough_spec (env : Env) (path fn : Str) (w : World) :
    (passthrough env path fn w).2.pix = w.pix
      ∧ (∀ q, q ≠ env.resolve fn → (passthrough env path fn w).2.fs q = w.fs q)
      ∧ ∃ d, (passthrough env path fn w).2.trace = w.trace ++ d
          ∧ ∀ ev ∈ d, ev = .remove fn ∨ ev = .link path fn ∨ ev = .copy path fn := by
  -- the state after the optional removal
  have h1 : ∃ w1 : World, (match w.fs (env.resolve fn) with
      | some _ => osRemove env fn w
      | none => w) = w1 ∧ w1.pix = w.pix ∧ (∀ q, q ≠ env.resolve fn → w1.fs q = w.fs q)
      ∧ ∃ d, w1.trace = w.trace ++ d
        ∧ ∀ ev ∈ d, ev = .remove fn ∨ ev = .link path fn ∨ ev = .copy path fn := by
    cases w.fs (env.resolve fn) with
    | none => exact ⟨w, rfl, rfl, fun _ _ => rfl, [], by simp, by simp⟩
    | some f =>
      obtain ⟨a, b, c⟩ := osRemove_spec env fn w
      exact ⟨_, rfl, a, b, [.remove fn], c, by simp⟩
  obtain ⟨w1, e1, hp1, hf1, d1, ht1, hd1⟩ := h1
  unfold passthrough
  simp only [e1]
  obtain ⟨lp, lf, lt⟩ := osLink_spec env path fn w1
  rcases hl : osLink env path fn w1 with ⟨b, w2⟩
  rw [hl] at lp lf lt
  simp only at lp lf lt
  cases b with
  | true =>
    refine ⟨by rw [lp, hp1], fun q hq => by rw [lf q hq, hf1 q hq], d1 ++ [.link path fn], ?_, ?_⟩
    · simp [lt, ht1]
    · intro ev hev
      rcases List.mem_append.1 hev with h | h
      · exact hd1 ev h
      · exact Or.inr (Or.inl (List.mem_singleton.1 h))
  | false =>
    dsimp only
    obtain ⟨cp, cf, ct⟩ := CopyFile_spec env path fn w2
    rcases hc : CopyFile env path fn w2 with ⟨b2, w3⟩
    rw [hc] at cp cf ct
    simp only at cp cf ct
    have hall : w3.pix = w.pix ∧ (∀ q, q ≠ env.resolve fn → w3.fs q = w.fs q)
        ∧ ∃ d, w3.trace = w.trace ++ d
          ∧ ∀ ev ∈ d, ev = .remove fn ∨ ev = .link path fn ∨ ev = .copy path fn := by
      refine ⟨by rw [cp, lp, hp1], fun q hq => by rw [cf q hq, lf q hq, hf1 q hq],
        d1 ++ [.link path fn, .copy path fn], ?_, ?_⟩
      · simp [ct, lt, ht1]
      · intro ev hev
        rcases List.mem_append.1 hev with h | h
        · exact hd1 ev h
        · simp only [List.mem_cons, List.mem_singleton, List.not_mem_nil, or_false] at h
          rcases h with h | h
          · exact Or.inr (Or.inl h)
          · exact Or.inr (Or.inr h)
    cases b2 <;> exact hall

theorem encodeTo_spec (env : Env) (p format : Str) (img : Image) (w : World) :
    (encodeTo env p format img w).2.pix = w.pix
      ∧ (∀ q, q ≠ env.resolve p → (encodeTo env p format img w).2.fs q = w.fs q)
      ∧ ∃ d, (encodeTo env p format img w).2.trace = w.trace ++ d ∧ ∀ ev ∈ d, ev = .write p := by
  unfold encodeTo
  split
  · obtain ⟨a, b, c, _⟩ := writeFile_spec env p (env.encodeJpeg img) w
    exact ⟨a, b, [.write p], c, by simp⟩
  · split
    · obtain ⟨a, b, c, _⟩ := writeFile_spec env p (env.encodePng img) w
      exact ⟨a, b, [.write p], c, by simp⟩
    · exact ⟨rfl, fun _ _ => rfl, [], by simp, by simp⟩

/-- The small stage, case by case. -/
theorem buildSmall_eq (env : Env) (fn ext : Str) (t : Nat) (img : Image)
    (format copyright : Str) (w : World) :
    buildSmall env fn ext t img format copyright w
      = if smallStale env w.fs fn ext t then
          (if env.createOk (smallFn fn ext) = true then
            encodeTo env (smallFn fn ext) format
              (env.resizeThumbnail env.small_w env.small_h img)
              ⟨w.fs.set (env.resolve (smallFn fn ext)) (some ⟨[], env.now⟩),
                w.pix ++ [entry env fn ext img copyright],
                w.trace ++ [.create (smallFn fn ext)]⟩
          else (some (.create (smallFn fn ext)),
            ⟨w.fs, w.pix ++ [entry env fn ext img copyright],
              w.trace ++ [.create (smallFn fn ext)]⟩))
        else (none, ⟨w.fs, w.pix ++ [entry env fn ext img copyright], w.trace⟩) := by
  have hstale : (match w.fs (env.resolve (smallFn fn ext)) with
      | none => true
      | some st => decide (st.modTime < t)) = true ↔ smallStale env w.fs fn ext t := by
    unfold smallStale
    cases w.fs (env.resolve (smallFn fn ext)) with
    | none => simp
    | some st => simp
  unfold buildSmall
  simp only
  by_cases hs : smallStale env w.fs fn ext t
  · rw [if_pos (hstale.2 hs), if_pos hs]
    cases hc : env.createOk (smallFn fn ext) with
    | true => rw [osCreate_ok env _ _ hc]; simp
    | false => rw [osCreate_fail env _ _ hc]; simp
  · rw [if_neg (fun h => hs (hstale.1 h)), if_neg hs]

theorem buildSmall_spec (env : Env) (fn ext : Str) (t : Nat) (img : Image)
    (format copyright : Str) (w : World) :
    (buildSmall env fn ext t img format copyright w).2.pix
        = w.pix ++ [entry env fn ext img copyright]
      ∧ (∀ q, q ≠ env.resolve (smallFn fn ext) →
          (buildSmall env fn ext t img format copyright w).2.fs q = w.fs q)
      ∧ (¬ smallStale env w.fs fn ext t →
          (buildSmall env fn ext t img format copyright w).2.fs = w.fs)
      ∧ ∃ d, (buildSmall env fn ext t img format copyright w).2.trace = w.trace ++ d
          ∧ (∀ ev ∈ d, ev = .create (smallFn fn ext) ∨ ev = .write (smallFn fn ext))
          ∧ (Event.create (smallFn fn ext) ∈ d ↔ smallStale env w.fs fn ext t)
          ∧ (¬ smallStale env w.fs fn ext t → d = []) := by
  rw [buildSmall_eq]
  by_cases hs : smallStale env w.fs fn ext t
  · rw [if_pos hs]
    cases hc : env.createOk (smallFn fn ext) with
    | false =>
      rw [if_neg Bool.false_ne_true]
      exact ⟨rfl, fun _ _ => rfl, fun h => absurd hs h, [.create (smallFn fn ext)], rfl,
        by simp, by simp [hs], fun h => absurd hs h⟩
    | true =>
      rw [if_pos rfl]
      obtain ⟨ep, ef, d, et, ed⟩ := encodeTo_spec env (smallFn fn ext) format
        (env.resizeThumbnail env.small_w env.small_h img)
        ⟨w.fs.set (env.resolve (smallFn fn ext)) (some ⟨[], env.now⟩),
          w.pix ++ [entry env fn ext img copyright], w.trace ++ [.create (smallFn fn ext)]⟩
      refine ⟨ep, fun q hq => by rw [ef q hq]; exact FS.set_ne _ _ _ _ hq,
        fun h => absurd hs h, .create (smallFn fn ext) :: d, by simp [et], ?_, by simp [hs],
        fun h => absurd hs h⟩
      intro ev hev
      rcases List.mem_cons.1 hev with h | h
      · exact Or.inl h
      · exact Or.inr (ed ev h)
  · rw [if_neg hs]
    exact ⟨rfl, fun _ _ => rfl, fun _ => rfl, [], by simp, by simp, by simp [hs], fun _ => rfl⟩

theorem buildThumb_spec (env : Env) (fn ext : Str) (t : Nat) (img : Image) (format : Str)
    (w : World) :
    (buildThumb env fn ext t img format w).2.pix = w.pix
      ∧ (∀ q, q ≠ env.resolve (thmFn fn ext) →
          (buildThumb env fn ext t img format w).2.fs q = w.fs q)
      ∧ ∃ d, (buildThumb env fn ext t img format w).2.trace = w.trace ++ d
          ∧ (∀ ev ∈ d, ev = .crop fn ∨ ev = .create (thmFn fn ext) ∨ ev = .write (thmFn fn ext))
          ∧ (thumbRecent env w.fs fn ext t → d = []
              ∧ (buildThumb env fn ext t img format w).1 = none
              ∧ (buildThumb env fn ext t img format w).2.fs = w.fs) := by
  have hrecent : (match w.fs (env.resolve (thmFn fn ext)) with
      | none => false
      | some st => decide (t < st.modTime)) = true ↔ thumbRecent env w.fs fn ext t := by
    unfold thumbRecent
    cases w.fs (env.resolve (thmFn fn ext)) with
    | none => simp
    | some st => simp
  unfold buildThumb
  simp only
  split
  · exact ⟨rfl, fun _ _ => rfl, [], by simp, by simp, fun _ => ⟨rfl, rfl, rfl⟩⟩
  · rename_i hr
    have hr' : ¬ thumbRecent env w.fs fn ext t := fun h => hr (hrecent.2 h)
    split
    · exact ⟨rfl, fun _ _ => rfl, [.crop fn], rfl, by simp, fun h => absurd h hr'⟩
    · split
      · obtain ⟨cp, cf, ct⟩ := osCreate_spec env (thmFn fn ext) (w.log (.crop fn))
        rcases hc : osCreate env (thmFn fn ext) (w.log (.crop fn)) with ⟨b, w2⟩
        rw [hc] at cp cf ct
        simp only at cp cf ct
        have hlt : (w.log (.crop fn)).trace = w.trace ++ [.crop fn] := rfl
        have hlf : (w.log (.crop fn)).fs = w.fs := rfl
        have hlp : (w.log (.crop fn)).pix = w.pix := rfl
        cases b with
        | false =>
          exact ⟨by rw [cp, hlp], fun q hq => by rw [cf q hq, hlf],
            [.crop fn, .create (thmFn fn ext)], by simp [ct, hlt], by simp,
            fun h => absurd h hr'⟩
        | true =>
          rename_i crop _ _
          obtain ⟨ep, ef, d, et, ed⟩ := encodeTo_spec env (thmFn fn ext) format
            (env.resize env.thm_w env.thm_h (env.subImage img crop)) w2
          refine ⟨by rw [ep, cp, hlp], fun q hq => by rw [ef q hq, cf q hq, hlf],
            .crop fn :: .create (thmFn fn ext) :: d, by simp [et, ct, hlt], ?_,
            fun h => absurd h hr'⟩
          intro ev hev
          simp only [List.mem_cons] at hev
          rcases hev with h | h | h
          · exact Or.inl h
          · exact Or.inr (Or.inl h)
          · exact Or.inr (Or.inr (ed ev h))
      · exact ⟨rfl, fun _ _ => rfl, [.crop fn], rfl, by simp, fun h => absurd h hr'⟩

/-! ## Lemmas on `thumbnail` -/

theorem thumbnail_skip (env : Env) (path : Str) (t : Nat) (w : World)
    (h : classify env.target path = none) : thumbnail env path t w = (none, w) := by
  simp [thumbnail, h]

/-- The ways a call of `thumbnail` on a processed path ends: with an error before
the entry is appended, with an error from writing the small file, or with the
result of the thumbnail stage. -/
theorem thumbnail_nf (env : Env) (path : Str) (t : Nat) (w : World) (fn ext : Str)
    (h : classify env.target path = some (fn, ext)) :
    ((∃ e, thumbnail env path t w = (some e, (passthrough env path fn w).2))
        ∧ ∀ img format c, ¬ ((passthrough env path fn w).1 = none
            ∧ load env path (passthrough env path fn w).2 = .ok (img, format, c)))
      ∨ ∃ img format c, (passthrough env path fn w).1 = none
          ∧ load env path (passthrough env path fn w).2 = .ok (img, format, c)
          ∧ ((∃ e, (buildSmall env fn ext t img format c (passthrough env path fn w).2).1 = some e
                ∧ thumbnail env path t w
                  = (some e, (buildSmall env fn ext t img format c (passthrough env path fn w).2).2))
              ∨ ((buildSmall env fn ext t img format c (passthrough env path fn w).2).1 = none
                ∧ thumbnail env path t w = buildThumb env fn ext t img format
                    (buildSmall env fn ext t img format c (passthrough env path fn w).2).2)) := by
  simp only [thumbnail, h]
  rcases hp : passthrough env path fn w with ⟨r1, w1⟩
  cases r1 with
  | some e =>
    left
    exact ⟨⟨e, rfl⟩, fun _ _ _ hh => by simp at hh⟩
  | none =>
    dsimp only
    cases hl : load env path w1 with
    | error e =>
      left
      exact ⟨⟨e, rfl⟩, fun _ _ _ hh => by simp at hh⟩
    | ok v =>
      obtain ⟨img, format, c⟩ := v
      right
      refine ⟨img, format, c, rfl, rfl, ?_⟩
      dsimp only
      rcases hb : buildSmall env fn ext t img format c w1 with ⟨r2, w2⟩
      cases r2 with
      | some e => exact Or.inl ⟨e, rfl, rfl⟩
      | none => exact Or.inr ⟨rfl, rfl⟩

/-- Everything a call of `thumbnail` on a processed path does to the state. -/
theorem thumbnail_spec (env : Env) (path : Str) (t : Nat) (w : World) (fn ext : Str)
    (h : classify env.target path = some (fn, ext)) :
    ∃ d, (thumbnail env path t w).2.trace = w.trace ++ d
      ∧ (∀ ev ∈ d, (ev = .remove fn ∨ ev = .link path fn ∨ ev = .copy path fn)
          ∨ ((ev = .create (smallFn fn ext) ∨ ev = .write (smallFn fn ext))
              ∧ smallStale env w.fs fn ext t)
          ∨ ((ev = .crop fn ∨ ev = .create (thmFn fn ext) ∨ ev = .write (thmFn fn ext))
              ∧ ¬ thumbRecent env w.fs fn ext t))
      ∧ (∀ q, q ≠ env.resolve fn
          → (smallStale env w.fs fn ext t → q ≠ env.resolve (smallFn fn ext))
          → (¬ thumbRecent env w.fs fn ext t → q ≠ env.resolve (thmFn fn ext))
          → (thumbnail env path t w).2.fs q = w.fs q)
      ∧ ((thumbnail env path t w).1 = none →
          ∃ img c, (thumbnail env path t w).2.pix = w.pix ++ [entry env fn ext img c])
      ∧ (∀ img format c, (passthrough env path fn w).1 = none
          → load env path (passthrough env path fn w).2 = .ok (img, format, c)
          → (thumbnail env path t w).2.pix = w.pix ++ [entry env fn ext img c]
            ∧ (Event.create (smallFn fn ext) ∈ d ↔ smallStale env w.fs fn ext t)) := by
  obtain ⟨hsf, htf, hst, _, _, _, _⟩ := files_distinct env path fn ext h
  have hnames : smallFn fn ext ≠ thmFn fn ext := fun e => hst (by rw [e])
  obtain ⟨pp, pf, d1, pt, pd⟩ := passthrough_spec env path fn w
  have hpass : ∀ ev ∈ d1, (ev = .remove fn ∨ ev = .link path fn ∨ ev = .copy path fn)
      ∨ ((ev = .create (smallFn fn ext) ∨ ev = .write (smallFn fn ext))
          ∧ smallStale env w.fs fn ext t)
      ∨ ((ev = .crop fn ∨ ev = .create (thmFn fn ext) ∨ ev = .write (thmFn fn ext))
          ∧ ¬ thumbRecent env w.fs fn ext t) :=
    fun ev hev => Or.inl (pd ev hev)
  have hnc : Event.create (smallFn fn ext) ∉ d1 := by
    intro hm
    rcases pd _ hm with hh | hh | hh <;> simp at hh
  rcases thumbnail_nf env path t w fn ext h with ⟨⟨e, he⟩, hno⟩ | ⟨img, format, c, hp1, hl, hrest⟩
  · refine ⟨d1, by rw [he]; exact pt, hpass, fun q hq _ _ => by rw [he]; exact pf q hq,
      fun hn => by rw [he] at hn; simp at hn, fun img format c h1 h2 => absurd ⟨h1, h2⟩ (hno _ _ _)⟩
  · obtain ⟨sp, sf, sfs, d2, st', sd, screate, sfresh⟩ := buildSmall_spec env fn ext t img
      format c (passthrough env path fn w).2
    have hstale : smallStale env (passthrough env path fn w).2.fs fn ext t
        ↔ smallStale env w.fs fn ext t := by
      unfold smallStale
      rw [pf _ hsf]
    rw [hstale] at screate sfresh sfs
    have hload : ∀ img' format' c', load env path (passthrough env path fn w).2
        = .ok (img', format', c') → c' = c ∧ img' = img := by
      intro img' format' c' h2
      rw [hl] at h2
      simp only [Except.ok.injEq, Prod.mk.injEq] at h2
      exact ⟨h2.2.2.symm, h2.1.symm⟩
    have hsmall : ∀ ev ∈ d2, (ev = .remove fn ∨ ev = .link path fn ∨ ev = .copy path fn)
        ∨ ((ev = .create (smallFn fn ext) ∨ ev = .write (smallFn fn ext))
            ∧ smallStale env w.fs fn ext t)
        ∨ ((ev = .crop fn ∨ ev = .create (thmFn fn ext) ∨ ev = .write (thmFn fn ext))
            ∧ ¬ thumbRecent env w.fs fn ext t) := by
      intro ev hev
      refine Or.inr (Or.inl ⟨sd ev hev, ?_⟩)
      by_contra hn
      rw [sfresh hn] at hev
      simp at hev
    have hfs2 : ∀ q, q ≠ env.resolve fn
        → (smallStale env w.fs fn ext t → q ≠ env.resolve (smallFn fn ext)) →
        (buildSmall env fn ext t img format c (passthrough env path fn w).2).2.fs q = w.fs q := by
      intro q hq hqs
      by_cases hs : smallStale env w.fs fn ext t
      · rw [sf q (hqs hs), pf q hq]
      · rw [sfs hs, pf q hq]
    rcases hrest with ⟨e, he1, he⟩ | ⟨hb1, hb⟩
    · refine ⟨d1 ++ d2, by rw [he, st', pt, List.append_assoc], ?_, ?_, ?_, ?_⟩
      · intro ev hev
        rcases List.mem_append.1 hev with hh | hh
        · exact hpass ev hh
        · exact hsmall ev hh
      · intro q hq hqs _
        rw [he]
        exact hfs2 q hq hqs
      · intro hn
        rw [he] at hn
        simp at hn
      · intro img' format' c' _ h2
        obtain ⟨rfl, rfl⟩ := hload _ _ _ h2
        refine ⟨by rw [he]; simp only; rw [sp, pp], ?_⟩
        rw [List.mem_append, ← screate]
        exact ⟨fun hh => hh.resolve_left hnc, Or.inr⟩
    · obtain ⟨tp, tf, d3, tt, td, trecent⟩ := buildThumb_spec env fn ext t img format
        (buildSmall env fn ext t img format c (passthrough env path fn w).2).2
      have hrec : thumbRecent env
          (buildSmall env fn ext t img format c (passthrough env path fn w).2).2.fs fn ext t
          ↔ thumbRecent env w.fs fn ext t := by
        unfold thumbRecent
        rw [sf _ (Ne.symm hst), pf _ htf]
      rw [hrec] at trecent
      have hthumb : ∀ ev ∈ d3, (ev = .remove fn ∨ ev = .link path fn ∨ ev = .copy path fn)
          ∨ ((ev = .create (smallFn fn ext) ∨ ev = .write (smallFn fn ext))
              ∧ smallStale env w.fs fn ext t)
          ∨ ((ev = .crop fn ∨ ev = .create (thmFn fn ext) ∨ ev = .write (thmFn fn ext))
              ∧ ¬ thumbRecent env w.fs fn ext t) := by
        intro ev hev
        refine Or.inr (Or.inr ⟨td ev hev, ?_⟩)
        intro hn
        rw [(trecent hn).1] at hev
        simp at hev
      have hnc3 : Event.create (smallFn fn ext) ∉ d3 := by
        intro hm
        rcases td _ hm with hh | hh | hh
        · simp at hh
        · simp only [Event.create.injEq] at hh
          exact hnames hh
        · simp at hh
      refine ⟨d1 ++ d2 ++ d3, by rw [hb, tt, st', pt]; simp only [List.append_assoc],
        ?_, ?_, ?_, ?_⟩
      · intro ev hev
        rcases List.mem_append.1 hev with hh | hh
        · rcases List.mem_append.1 hh with hh | hh
          · exact hpass ev hh
          · exact hsmall ev hh
        · exact hthumb ev hh
      · intro q hq hqs hqt
        rw [hb]
        by_cases hr : thumbRecent env w.fs fn ext t
        · rw [(trecent hr).2.2]
          exact hfs2 q hq hqs
        · rw [tf q (hqt hr)]
          exact hfs2 q hq hqs
      · intro _
        exact ⟨img, c, by rw [hb, tp, sp, pp]⟩
      · intro img' format' c' _ h2
        obtain ⟨rfl, rfl⟩ := hload _ _ _ h2
        refine ⟨by rw [hb, tp, sp, pp], ?_⟩
        rw [List.mem_append, List.mem_append, ← screate]
        constructor
        · rintro ((hh | hh) | hh)
          · exact absurd hh hnc
          · exact hh
          · exact absurd hh hnc3
        · exact fun hh => Or.inl (Or.inr hh)

theorem newEvents_append (w w' : World) (d : List Event) (h : w'.trace = w.trace ++ d) :
    newEvents w w' = d := by
  unfold newEvents
  rw [h, List.drop_left]

/-- A call of `thumbnail` makes only the calls of `thumbnailEvent` and leaves
every file it does not handle as it was. -/
theorem thumbnail_frame (env : Env) (path : Str) (t : Nat) (w : World) :
    (∃ d, (thumbnail env path t w).2.trace = w.trace ++ d
        ∧ ∀ ev ∈ d, thumbnailEvent env path ev)
      ∧ ∀ q, untouchedBy env path q → (thumbnail env path t w).2.fs q = w.fs q := by
  cases hc : classify env.target path with
  | none =>
    rw [thumbnail_skip env path t w hc]
    exact ⟨⟨[], by simp, by simp⟩, fun _ _ => rfl⟩
  | some v =>
    obtain ⟨fn, ext⟩ := v
    obtain ⟨d, ht, hd, hfs, _, _⟩ := thumbnail_spec env path t w fn ext hc
    refine ⟨⟨d, ht, ?_⟩, ?_⟩
    · intro ev hev
      refine ⟨fn, ext, hc, ?_⟩
      rcases hd ev hev with h | h | h
      · rcases h with h | h | h
        · exact Or.inl h
        · exact Or.inr (Or.inl h)
        · exact Or.inr (Or.inr (Or.inl h))
      · rcases h.1 with h | h
        · exact Or.inr (Or.inr (Or.inr (Or.inl h)))
        · exact Or.inr (Or.inr (Or.inr (Or.inr (Or.inl h))))
      · rcases h.1 with h | h | h
        · exact Or.inr (Or.inr (Or.inr (Or.inr (Or.inr (Or.inl h)))))
        · exact Or.inr (Or.inr (Or.inr (Or.inr (Or.inr (Or.inr (Or.inl h))))))
        · exact Or.inr (Or.inr (Or.inr (Or.inr (Or.inr (Or.inr (Or.inr h))))))
    · intro q hq
      obtain ⟨h1, h2, h3⟩ := hq fn ext hc
      exact hfs q h1 (fun _ => h2) (fun _ => h3)

/-! ## Lemmas on the walk and on `main` -/

theorem walkFn_skip (env : Env) (e : WalkEntry) (w : World) (he : e.err = none)
    (hc : classify env.target e.path = none) : walkFn env e w = (none, w) := by
  simp [walkFn, he, thumbnail_skip env e.path e.modTime w hc]

theorem walk_cons (env : Env) (e : WalkEntry) (es : List WalkEntry) (w : World) :
    walk env (e :: es) w
      = if (walkFn env e w).1 = none then walk env es (walkFn env e w).2
        else walkFn env e w := by
  rcases h : walkFn env e w with ⟨r, w1⟩
  cases r <;> simp [walk, h]

/-- A walk stops at the first entry whose call returns an error. -/
theorem walk_stops (env : Env) (pre : List WalkEntry) (e : WalkEntry) (post : List WalkEntry)
    (w : World) (err : Err)
    (hpre : (walk env pre w).1 = none)
    (hfail : (walkFn env e (walk env pre w).2).1 = some err) :
    walk env (pre ++ e :: post) w = (some err, (walkFn env e (walk env pre w).2).2) := by
  induction pre generalizing w with
  | nil =>
    have e0 : walk env [] w = (none, w) := rfl
    rw [e0] at hfail ⊢
    rw [List.nil_append, walk_cons, if_neg (by rw [hfail]; simp)]
    exact Prod.ext hfail rfl
  | cons a as ih =>
    by_cases ha : (walkFn env a w).1 = none
    · have e1 : walk env (a :: as) w = walk env as (walkFn env a w).2 := by
        rw [walk_cons, if_pos ha]
      have e2 : walk env (a :: (as ++ e :: post)) w
          = walk env (as ++ e :: post) (walkFn env a w).2 := by
        rw [walk_cons, if_pos ha]
      rw [e1] at hpre hfail ⊢
      rw [List.cons_append, e2]
      exact ih _ hpre hfail
    · rw [walk_cons, if_neg ha] at hpre
      exact absurd hpre ha

theorem walk_all_skipped (env : Env) (entries : List WalkEntry) (w : World)
    (h : ∀ e ∈ entries, e.err = none ∧ classify env.target e.path = none) :
    walk env entries w = (none, w) := by
  induction entries with
  | nil => rfl
  | cons e es ih =>
    have he := h e (List.mem_cons_self _ _)
    rw [walk_cons, walkFn_skip env e w he.1 he.2]
    simp only [if_true]
    exact ih (fun x hx => h x (List.mem_cons_of_mem _ hx))

/-- A walk that returns no error has appended one entry for each processed
path, in order. -/
theorem walk_pix (env : Env) (entries : List WalkEntry) (w : World)
    (h : (walk env entries w).1 = none) :
    (walk env entries w).2.pix.map pixNames
      = w.pix.map pixNames ++ (candidates env entries).map entryNames := by
  induction entries generalizing w with
  | nil => simp [walk, candidates]
  | cons e es ih =>
    rw [walk_cons] at h ⊢
    by_cases ha : (walkFn env e w).1 = none
    · rw [if_pos ha] at h ⊢
      rw [ih _ h]
      have herr : e.err = none := by
        cases he : e.err with
        | none => rfl
        | some err => simp [walkFn, he] at ha
      have hw : walkFn env e w = thumbnail env e.path e.modTime w := by
        simp [walkFn, herr]
      cases hc : classify env.target e.path with
      | none =>
        rw [hw, thumbnail_skip _ _ _ _ hc]
        simp [candidates, hc]
      | some v =>
        obtain ⟨fn, ext⟩ := v
        obtain ⟨_, _, _, _, hpix, _⟩ := thumbnail_spec env e.path e.modTime w fn ext hc
        rw [hw] at ha
        obtain ⟨img, c, hp⟩ := hpix ha
        rw [hw, hp]
        simp [candidates, hc, pixNames, entryNames, entry]
    · rw [if_neg ha] at h
      exact absurd h ha

theorem walkFn_frame (env : Env) (e : WalkEntry) (w : World) :
    (∃ d, (walkFn env e w).2.trace = w.trace ++ d
        ∧ ∀ ev ∈ d, thumbnailEvent env e.path ev)
      ∧ ∀ q, untouchedBy env e.path q → (walkFn env e w).2.fs q = w.fs q := by
  unfold walkFn
  cases e.err with
  | some err => exact ⟨⟨[], by simp, by simp⟩, fun _ _ => rfl⟩
  | none => exact thumbnail_frame env e.path e.modTime w

/-- A walk makes only the calls of its entries and leaves every file none of
them handles as it was. -/
theorem walk_frame (env : Env) (entries : List WalkEntry) (w : World) :
    (∃ d, (walk env entries w).2.trace = w.trace ++ d
        ∧ ∀ ev ∈ d, ∃ e ∈ entries, thumbnailEvent env e.path ev)
      ∧ ∀ q, (∀ e ∈ entries, untouchedBy env e.path q) → (walk env entries w).2.fs q = w.fs q := by
  induction entries generalizing w with
  | nil => exact ⟨⟨[], by simp [walk], by simp⟩, fun _ _ => rfl⟩
  | cons e es ih =>
    obtain ⟨⟨d, ht, hd⟩, hf⟩ := walkFn_frame env e w
    rw [walk_cons]
    by_cases ha : (walkFn env e w).1 = none
    · rw [if_pos ha]
      obtain ⟨⟨d', ht', hd'⟩, hf'⟩ := ih (walkFn env e w).2
      refine ⟨⟨d ++ d', by rw [ht', ht, List.append_assoc], ?_⟩, ?_⟩
      · intro ev hev
        rcases List.mem_append.1 hev with h | h
        · exact ⟨e, List.mem_cons_self _ _, hd ev h⟩
        · obtain ⟨x, hx, hxe⟩ := hd' ev h
          exact ⟨x, List.mem_cons_of_mem _ hx, hxe⟩
      · intro q hq
        rw [hf' q (fun x hx => hq x (List.mem_cons_of_mem _ hx)),
          hf q (hq e (List.mem_cons_self _ _))]
    · rw [if_neg ha]
      refine ⟨⟨d, ht, fun ev hev => ⟨e, List.mem_cons_self _ _, hd ev hev⟩⟩, ?_⟩
      intro q hq
      exact hf q (hq e (List.mem_cons_self _ _))

/-- No call of `thumbnail` handles the index file. -/
theorem index_untouched (env : Env) (path : Str) :
    untouchedBy env path (env.resolve (indexPath env)) := by
  intro fn ext hc
  obtain ⟨_, _, _, h1, h2, h3, _⟩ := files_distinct env path fn ext hc
  exact ⟨Ne.symm h1, Ne.symm h2, Ne.symm h3⟩

/-- The calls of `thumbnail` that write write a small file or a thumbnail file,
never the index file. -/
theorem thumbnailEvent_write (env : Env) (path p : Str)
    (h : thumbnailEvent env path (.write p)) : env.resolve p ≠ env.resolve (indexPath env) := by
  obtain ⟨fn, ext, hc, hev⟩ := h
  obtain ⟨_, _, _, _, h2, h3, _⟩ := files_distinct env path fn ext hc
  rcases hev with h | h | h | h | h | h | h | h
  · simp at h
  · simp at h
  · simp at h
  · simp at h
  · simp only [Event.write.injEq] at h
    rw [h]
    exact h2
  · simp at h
  · simp at h
  · simp only [Event.write.injEq] at h
    rw [h]
    exact h3

/-- What `setup` does when it succeeds. -/
theorem setup_spec (env : Env) (w : World) (h : (setup env w).1 = none) :
    (setup env w).2.pix = []
      ∧ (setup env w).2.fs (env.resolve (indexPath env)) = some ⟨[], env.now⟩
      ∧ (env.cpuprofile ≠ [] →
          (setup env w).2.fs (env.resolve env.cpuprofile) = some ⟨[], env.now⟩)
      ∧ (∀ q, q ≠ env.resolve (indexPath env)
          → (env.cpuprofile ≠ [] → q ≠ env.resolve env.cpuprofile)
          → (setup env w).2.fs q = w.fs q)
      ∧ (setup env w).2.trace
          = w.trace ++ .create (indexPath env)
              :: (if env.cpuprofile = [] then [] else [.create env.cpuprofile]) := by
  unfold setup at h ⊢
  split at h
  · simp at h
  · rename_i h1
    rw [if_neg h1]
    split at h
    · simp at h
    · rename_i h2
      rw [if_neg h2]
      cases hc : env.createOk (indexPath env) with
      | false =>
        rw [osCreate_fail env _ _ hc] at h
        simp at h
      | true =>
        rw [osCreate_ok env _ _ hc] at h ⊢
        dsimp only at h ⊢
        by_cases hp : env.cpuprofile = []
        · rw [if_pos hp, if_pos hp]
          exact ⟨rfl, FS.set_eq _ _ _, fun hh => absurd hp hh,
            fun q hq _ => FS.set_ne _ _ _ _ hq, rfl⟩
        · rw [if_neg hp] at h ⊢
          cases hc2 : env.createOk env.cpuprofile with
          | false =>
            rw [osCreate_fail env _ _ hc2] at h
            simp at h
          | true =>
            rw [osCreate_ok env _ _ hc2]
            dsimp only
            refine ⟨rfl, ?_, fun _ => FS.set_eq _ _ _, ?_, by simp [hp]⟩
            · by_cases he : env.resolve (indexPath env) = env.resolve env.cpuprofile
              · rw [he]
                exact FS.set_eq _ _ _
              · rw [FS.set_ne _ _ _ _ he]
                exact FS.set_eq _ _ _
            · intro q hq hq2
              rw [FS.set_ne _ _ _ _ (hq2 hp), FS.set_ne _ _ _ _ hq]

/-- What `setup` can do at most, whether it succeeds or not. -/
theorem setup_frame (env : Env) (w : World) :
    (∃ d, (setup env w).2.trace = w.trace ++ d
        ∧ ∀ ev ∈ d, ev = .create (indexPath env)
            ∨ (env.cpuprofile ≠ [] ∧ ev = .create env.cpuprofile))
      ∧ ∀ q, q ≠ env.resolve (indexPath env)
          → (env.cpuprofile ≠ [] → q ≠ env.resolve env.cpuprofile)
          → (setup env w).2.fs q = w.fs q := by
  obtain ⟨_, cf, ct⟩ := osCreate_spec env (indexPath env) w
  unfold setup
  split
  · exact ⟨⟨[], by simp, by simp⟩, fun _ _ _ => rfl⟩
  · split
    · exact ⟨⟨[], by simp, by simp⟩, fun _ _ _ => rfl⟩
    · rcases hc : osCreate env (indexPath env) w with ⟨b, w1⟩
      rw [hc] at cf ct
      simp only at cf ct
      cases b with
      | false =>
        exact ⟨⟨[.create (indexPath env)], ct, by simp⟩, fun q hq _ => cf q hq⟩
      | true =>
        dsimp only
        by_cases hp : env.cpuprofile = []
        · rw [if_pos hp]
          exact ⟨⟨[.create (indexPath env)], ct, by simp⟩, fun q hq _ => cf q hq⟩
        · rw [if_neg hp]
          obtain ⟨_, cf2, ct2⟩ := osCreate_spec env env.cpuprofile w1
          rcases hc2 : osCreate env env.cpuprofile w1 with ⟨b2, w2⟩
          rw [hc2] at cf2 ct2
          simp only at cf2 ct2
          have hall : (∃ d, w2.trace = w.trace ++ d
              ∧ ∀ ev ∈ d, ev = .create (indexPath env)
                  ∨ (env.cpuprofile ≠ [] ∧ ev = .create env.cpuprofile))
              ∧ ∀ q, q ≠ env.resolve (indexPath env)
                  → (env.cpuprofile ≠ [] → q ≠ env.resolve env.cpuprofile)
                  → w2.fs q = w.fs q := by
            refine ⟨⟨[.create (indexPath env), .create env.cpuprofile],
              by rw [ct2, ct]; simp, ?_⟩, fun q hq hq2 => by rw [cf2 q (hq2 hp), cf q hq]⟩
            intro ev hev
            simp only [List.mem_cons, List.mem_singleton, List.not_mem_nil, or_false] at hev
            rcases hev with h | h
            · exact Or.inl h
            · exact Or.inr ⟨hp, h⟩
          cases b2 <;> exact hall

theorem main_of_setup (env : Env) (entries : List WalkEntry) (w : World)
    (h : (setup env w).1 = none) :
    main env entries w
      = match walk env entries (setup env w).2 with
        | (some e, w2) => (some (.walkError e), w2)
        | (none, w2) => finish env w2 := by
  unfold main
  rcases hs : setup env w with ⟨r, w1⟩
  rw [hs] at h
  simp only at h
  subst h
  rfl

theorem main_setup_failed (env : Env) (entries : List WalkEntry) (w : World) (f : Fatal)
    (h : (setup env w).1 = some f) : main env entries w = (some f, (setup env w).2) := by
  unfold main
  rcases hs : setup env w with ⟨r, w1⟩
  rw [hs] at h
  simp only at h
  subst h
  rfl

theorem mem_candidates (env : Env) (entries : List WalkEntry) (path fn ext : Str)
    (h : (path, fn, ext) ∈ candidates env entries) :
    classify env.target path = some (fn, ext) := by
  unfold candidates at h
  obtain ⟨e, _, he⟩ := List.mem_filterMap.1 h
  cases hc : classify env.target e.path with
  | none => rw [hc] at he; simp at he
  | some v =>
    rw [hc] at he
    simp only [Option.some.injEq, Prod.mk.injEq] at he
    obtain ⟨rfl, rfl, rfl⟩ := he
    exact hc

/-- A walk over entries whose derivatives are all up to date only installs the
full-size copies of the processed entries. -/
theorem walk_fresh (env : Env) (entries : List WalkEntry) (w : World)
    (h : ∀ e ∈ entries, derivativesFresh env w.fs e) :
    (∃ d, (walk env entries w).2.trace = w.trace ++ d
        ∧ ∀ ev ∈ d, ∃ e ∈ entries, ∃ fn ext, classify env.target e.path = some (fn, ext)
            ∧ (ev = .remove fn ∨ ev = .link e.path fn ∨ ev = .copy e.path fn))
      ∧ ∀ q, (∀ e ∈ entries, ∀ fn ext, classify env.target e.path = some (fn, ext) →
            q ≠ env.resolve fn) → (walk env entries w).2.fs q = w.fs q := by
  induction entries generalizing w with
  | nil => exact ⟨⟨[], by simp [walk], by simp⟩, fun _ _ => rfl⟩
  | cons e es ih =>
    have hes : ∀ e' ∈ es, derivativesFresh env w.fs e' :=
      fun x hx => h x (List.mem_cons_of_mem _ hx)
    have hstep : (∃ d, (walkFn env e w).2.trace = w.trace ++ d
        ∧ ∀ ev ∈ d, ∃ fn ext, classify env.target e.path = some (fn, ext)
            ∧ (ev = .remove fn ∨ ev = .link e.path fn ∨ ev = .copy e.path fn))
        ∧ (∀ q, (∀ fn ext, classify env.target e.path = some (fn, ext) → q ≠ env.resolve fn) →
            (walkFn env e w).2.fs q = w.fs q)
        ∧ ∀ e' ∈ es, derivativesFresh env (walkFn env e w).2.fs e' := by
      cases he : e.err with
      | some err =>
        have : walkFn env e w = (some err, w) := by simp [walkFn, he]
        rw [this]
        exact ⟨⟨[], by simp, by simp⟩, fun _ _ => rfl, hes⟩
      | none =>
        have hw : walkFn env e w = thumbnail env e.path e.modTime w := by
          simp [walkFn, he]
        rw [hw]
        cases hc : classify env.target e.path with
        | none =>
          rw [thumbnail_skip _ _ _ _ hc]
          exact ⟨⟨[], by simp, by simp⟩, fun _ _ => rfl, hes⟩
        | some v =>
          obtain ⟨fn, ext⟩ := v
          obtain ⟨hns, hrec⟩ := h e (List.mem_cons_self _ _) fn ext hc
          obtain ⟨d, ht, hd, hfs, _, _⟩ := thumbnail_spec env e.path e.modTime w fn ext hc
          obtain ⟨_, _, _, _, _, _, hcross⟩ := files_distinct env e.path fn ext hc
          have hfs' : ∀ q, q ≠ env.resolve fn →
              (thumbnail env e.path e.modTime w).2.fs q = w.fs q :=
            fun q hq => hfs q hq (fun hh => absurd hh hns) (fun hh => absurd hrec hh)
          refine ⟨⟨d, ht, ?_⟩, ?_, ?_⟩
          · intro ev hev
            rcases hd ev hev with h1 | h1 | h1
            · exact ⟨fn, ext, rfl, h1⟩
            · exact absurd h1.2 hns
            · exact absurd hrec h1.2
          · intro q hq
            exact hfs' q (hq fn ext rfl)
          · intro e' he' fn' ext' hc'
            obtain ⟨h1, h2⟩ := hcross e'.path fn' ext' hc'
            unfold smallStale thumbRecent
            rw [hfs' _ h1, hfs' _ h2]
            exact hes e' he' fn' ext' hc'
    obtain ⟨⟨d, ht, hd⟩, hf, hrest⟩ := hstep
    rw [walk_cons]
    by_cases ha : (walkFn env e w).1 = none
    · rw [if_pos ha]
      obtain ⟨⟨d', ht', hd'⟩, hf'⟩ := ih _ hrest
      refine ⟨⟨d ++ d', by rw [ht', ht, List.append_assoc], ?_⟩, ?_⟩
      · intro ev hev
        rcases List.mem_append.1 hev with h1 | h1
        · exact ⟨e, List.mem_cons_self _ _, hd ev h1⟩
        · obtain ⟨x, hx, hxe⟩ := hd' ev h1
          exact ⟨x, List.mem_cons_of_mem _ hx, hxe⟩
      · intro q hq
        rw [hf' q (fun x hx => hq x (List.mem_cons_of_mem _ hx)),
          hf q (hq e (List.mem_cons_self _ _))]
    · rw [if_neg ha]
      exact ⟨⟨d, ht, fun ev hev => ⟨e, List.mem_cons_self _ _, hd ev hev⟩⟩,
        fun q hq => hf q (hq e (List.mem_cons_self _ _))⟩

theorem stopProfile_frame (env : Env) (w : World) :
    (stopProfile env w).pix = w.pix
      ∧ (∃ d, (stopProfile env w).trace = w.trace ++ d
          ∧ ∀ ev ∈ d, env.cpuprofile ≠ [] ∧ ev = .write env.cpuprofile)
      ∧ ∀ q, (env.cpuprofile ≠ [] → q ≠ env.resolve env.cpuprofile) →
          (stopProfile env w).fs q = w.fs q := by
  unfold stopProfile
  by_cases hp : env.cpuprofile = []
  · rw [if_pos hp]
    exact ⟨rfl, ⟨[], by simp, by simp⟩, fun _ _ => rfl⟩
  · rw [if_neg hp]
    obtain ⟨a, b, c, _⟩ := writeFile_spec env env.cpuprofile env.profileData w
    exact ⟨a, ⟨[.write env.cpuprofile], c, by simp [hp]⟩, fun q hq => b q (hq hp)⟩

/-- What `finish` can do at most. -/
theorem finish_frame (env : Env) (w : World) :
    (finish env w).2.pix = w.pix
      ∧ (∃ d, (finish env w).2.trace = w.trace ++ d
          ∧ ∀ ev ∈ d, ev = .write (indexPath env)
              ∨ (env.cpuprofile ≠ [] ∧ ev = .write env.cpuprofile))
      ∧ ∀ q, q ≠ env.resolve (indexPath env)
          → (env.cpuprofile ≠ [] → q ≠ env.resolve env.cpuprofile)
          → (finish env w).2.fs q = w.fs q := by
  unfold finish
  split
  · exact ⟨rfl, ⟨[], by simp, by simp⟩, fun _ _ _ => rfl⟩
  · rename_i p0 rest _
    dsimp only
    obtain ⟨a, b, c, _⟩ := writeFile_spec env (indexPath env) (renderIndex env p0 (p0 :: rest)) w
    obtain ⟨sa, ⟨d, sc, sd⟩, sb⟩ := stopProfile_frame env
      (writeFile env (indexPath env) (renderIndex env p0 (p0 :: rest)) w)
    refine ⟨by rw [sa, a], ⟨.write (indexPath env) :: d, by rw [sc, c]; simp, ?_⟩, ?_⟩
    · intro ev hev
      rcases List.mem_cons.1 hev with h | h
      · exact Or.inl h
      · exact Or.inr (sd ev h)
    · intro q hq hq2
      rw [sb q hq2, b q hq]

/-- What `finish` writes to the index when there are entries and the profile
file is not the index file. -/
theorem finish_index (env : Env) (w : World) (p0 : Pix) (rest : List Pix)
    (hp : w.pix = p0 :: rest)
    (hprof : env.cpuprofile ≠ [] → env.resolve env.cpuprofile ≠ env.resolve (indexPath env)) :
    (finish env w).1 = none
      ∧ (finish env w).2.fs (env.resolve (indexPath env))
          = some ⟨renderIndex env p0 (p0 :: rest), env.now⟩ := by
  unfold finish
  rw [hp]
  dsimp only
  refine ⟨rfl, ?_⟩
  rw [(stopProfile_frame env _).2.2 _ (fun h => Ne.symm (hprof h))]
  exact (writeFile_spec _ _ _ _).2.2.2

/-- A run over entries whose derivatives are all up to date leaves every
derivative file as it was and makes no call beyond the installation of the
full-size copies and the handling of the index and of the profile file. -/
theorem main_fresh (env : Env) (entries : List WalkEntry) (w : World)
    (h : ∀ e ∈ entries, derivativesFresh env w.fs e)
    (hprof : env.cpuprofile ≠ [] → ∀ e ∈ entries, ∀ fn ext,
      classify env.target e.path = some (fn, ext) →
        env.resolve env.cpuprofile ≠ env.resolve (smallFn fn ext)
          ∧ env.resolve env.cpuprofile ≠ env.resolve (thmFn fn ext)) :
    (∀ e ∈ entries, ∀ fn ext, classify env.target e.path = some (fn, ext) →
        (main env entries w).2.fs (env.resolve (smallFn fn ext))
            = w.fs (env.resolve (smallFn fn ext))
          ∧ (main env entries w).2.fs (env.resolve (thmFn fn ext))
            = w.fs (env.resolve (thmFn fn ext)))
      ∧ ∀ ev ∈ newEvents w (main env entries w).2,
          (∃ e ∈ entries, ∃ fn ext, classify env.target e.path = some (fn, ext)
              ∧ (ev = .remove fn ∨ ev = .link e.path fn ∨ ev = .copy e.path fn))
            ∨ ev = .create (indexPath env) ∨ ev = .write (indexPath env)
            ∨ (env.cpuprofile ≠ []
                ∧ (ev = .create env.cpuprofile ∨ ev = .write env.cpuprofile)) := by
  -- a derivative file is neither the index, nor the profile file, nor a full-size copy
  have hder : ∀ q, (∃ e ∈ entries, ∃ fn ext, classify env.target e.path = some (fn, ext)
      ∧ (q = env.resolve (smallFn fn ext) ∨ q = env.resolve (thmFn fn ext))) →
      q ≠ env.resolve (indexPath env)
        ∧ (env.cpuprofile ≠ [] → q ≠ env.resolve env.cpuprofile)
        ∧ ∀ e ∈ entries, ∀ fn ext, classify env.target e.path = some (fn, ext) →
            q ≠ env.resolve fn := by
    rintro q ⟨e, he, fn, ext, hc, hq⟩
    obtain ⟨_, _, _, _, h5, h6, _⟩ := files_distinct env e.path fn ext hc
    refine ⟨?_, ?_, ?_⟩
    · rcases hq with rfl | rfl
      · exact h5
      · exact h6
    · intro hp
      obtain ⟨a, b⟩ := hprof hp e he fn ext hc
      rcases hq with rfl | rfl
      · exact Ne.symm a
      · exact Ne.symm b
    · intro e' _ fn' ext' hc'
      obtain ⟨_, _, _, _, _, _, hcross⟩ := files_distinct env e'.path fn' ext' hc'
      obtain ⟨a, b⟩ := hcross e.path fn ext hc
      rcases hq with rfl | rfl
      · exact a
      · exact b
  obtain ⟨⟨ds, hts, hds⟩, hfs⟩ := setup_frame env w
  have hsetup : ∀ ev ∈ ds,
      (∃ e ∈ entries, ∃ fn ext, classify env.target e.path = some (fn, ext)
          ∧ (ev = .remove fn ∨ ev = .link e.path fn ∨ ev = .copy e.path fn))
        ∨ ev = .create (indexPath env) ∨ ev = .write (indexPath env)
        ∨ (env.cpuprofile ≠ []
            ∧ (ev = .create env.cpuprofile ∨ ev = .write env.cpuprofile)) := by
    intro ev hev
    rcases hds ev hev with h1 | ⟨h1, h2⟩
    · exact Or.inr (Or.inl h1)
    · exact Or.inr (Or.inr (Or.inr ⟨h1, Or.inl h2⟩))
  cases hs : (setup env w).1 with
  | some f =>
    rw [main_setup_failed env entries w f hs]
    refine ⟨?_, ?_⟩
    · intro e he fn ext hc
      obtain ⟨a1, a2, _⟩ := hder _ ⟨e, he, fn, ext, hc, Or.inl rfl⟩
      obtain ⟨b1, b2, _⟩ := hder _ ⟨e, he, fn, ext, hc, Or.inr rfl⟩
      exact ⟨hfs _ a1 a2, hfs _ b1 b2⟩
    · rw [newEvents_append _ _ ds hts]
      exact hsetup
  | none =>
    have hfresh : ∀ e ∈ entries, derivativesFresh env (setup env w).2.fs e := by
      intro e he fn ext hc
      obtain ⟨a1, a2, _⟩ := hder _ ⟨e, he, fn, ext, hc, Or.inl rfl⟩
      obtain ⟨b1, b2, _⟩ := hder _ ⟨e, he, fn, ext, hc, Or.inr rfl⟩
      unfold smallStale thumbRecent
      rw [hfs _ a1 a2, hfs _ b1 b2]
      exact h e he fn ext hc
    obtain ⟨⟨dw, htw, hdw⟩, hfw⟩ := walk_fresh env entries _ hfresh
    obtain ⟨_, ⟨df, htf, hdf⟩, hff⟩ := finish_frame env (walk env entries (setup env w).2).2
    have hwalk : ∀ ev ∈ ds ++ dw,
        (∃ e ∈ entries, ∃ fn ext, classify env.target e.path = some (fn, ext)
            ∧ (ev = .remove fn ∨ ev = .link e.path fn ∨ ev = .copy e.path fn))
          ∨ ev = .create (indexPath env) ∨ ev = .write (indexPath env)
          ∨ (env.cpuprofile ≠ []
              ∧ (ev = .create env.cpuprofile ∨ ev = .write env.cpuprofile)) := by
      intro ev hev
      rcases List.mem_append.1 hev with h1 | h1
      · exact hsetup ev h1
      · exact Or.inl (hdw ev h1)
    have hfsw : ∀ q, (∃ e ∈ entries, ∃ fn ext, classify env.target e.path = some (fn, ext)
        ∧ (q = env.resolve (smallFn fn ext) ∨ q = env.resolve (thmFn fn ext))) →
        (walk env entries (setup env w).2).2.fs q = w.fs q := by
      intro q hq
      obtain ⟨a1, a2, a3⟩ := hder q hq
      rw [hfw q a3, hfs q a1 a2]
    have htw' : (walk env entries (setup env w).2).2.trace = w.trace ++ (ds ++ dw) := by
      rw [htw, hts, List.append_assoc]
    rw [main_of_setup env entries w hs]
    rcases hwk : walk env entries (setup env w).2 with ⟨r, w2⟩
    rw [hwk] at hfsw htw' htf hff
    simp only at hfsw htw' htf hff
    cases r with
    | some err =>
      dsimp only
      refine ⟨fun e he fn ext hc => ⟨hfsw _ ⟨e, he, fn, ext, hc, Or.inl rfl⟩,
        hfsw _ ⟨e, he, fn, ext, hc, Or.inr rfl⟩⟩, ?_⟩
      rw [newEvents_append _ _ _ htw']
      exact hwalk
    | none =>
      dsimp only
      refine ⟨?_, ?_⟩
      · intro e he fn ext hc
        obtain ⟨a1, a2, _⟩ := hder _ ⟨e, he, fn, ext, hc, Or.inl rfl⟩
        obtain ⟨b1, b2, _⟩ := hder _ ⟨e, he, fn, ext, hc, Or.inr rfl⟩
        rw [hff _ a1 a2, hff _ b1 b2]
        exact ⟨hfsw _ ⟨e, he, fn, ext, hc, Or.inl rfl⟩,
          hfsw _ ⟨e, he, fn, ext, hc, Or.inr rfl⟩⟩
      · have htot : (finish env w2).2.trace = w.trace ++ ((ds ++ dw) ++ df) := by
          rw [htf, htw', List.append_assoc]
        rw [newEvents_append _ _ _ htot]
        intro ev hev
        rcases List.mem_append.1 hev with h1 | h1
        · exact hwalk ev h1
        · rcases hdf ev h1 with h2 | ⟨h2, h3⟩
          · exact Or.inr (Or.inr (Or.inl h2))
          · exact Or.inr (Or.inr (Or.inr ⟨h2, Or.inr h3⟩))

/-- How a call that reached the small stage ends, seen from that stage: the
small file is as the stage left it, an error of the stage is the error of the
call, and only calls of the thumbnail stage follow. -/
theorem thumbnail_small_view (env : Env) (path : Str) (t : Nat) (w : World) (fn ext : Str)
    (img : Image) (format c : Str)
    (hc : classify env.target path = some (fn, ext))
    (hp : (passthrough env path fn w).1 = none)
    (hl : load env path (passthrough env path fn w).2 = .ok (img, format, c)) :
    (thumbnail env path t w).2.fs (env.resolve (smallFn fn ext))
        = (buildSmall env fn ext t img format c (passthrough env path fn w).2).2.fs
            (env.resolve (smallFn fn ext))
      ∧ (∀ e, (buildSmall env fn ext t img format c (passthrough env path fn w).2).1 = some e
          → (thumbnail env path t w).1 = some e)
      ∧ ∃ d3, (thumbnail env path t w).2.trace
          = (buildSmall env fn ext t img format c (passthrough env path fn w).2).2.trace ++ d3 := by
  obtain ⟨_, _, hst, _, _, _, _⟩ := files_distinct env path fn ext hc
  rcases thumbnail_nf env path t w fn ext hc with ⟨_, hno⟩ | ⟨img', format', c', _, hl', hrest⟩
  · exact absurd ⟨hp, hl⟩ (hno _ _ _)
  · rw [hl] at hl'
    simp only [Except.ok.injEq, Prod.mk.injEq] at hl'
    obtain ⟨rfl, rfl, rfl⟩ := hl'
    rcases hrest with ⟨e, he1, he⟩ | ⟨hb1, hb⟩
    · rw [he]
      exact ⟨rfl, fun e' h' => by rw [he1] at h'; exact h', [], by simp⟩
    · obtain ⟨_, tf, d3, tt, _, _⟩ := buildThumb_spec env fn ext t img format
        (buildSmall env fn ext t img format c (passthrough env path fn w).2).2
      rw [hb]
      exact ⟨tf _ hst, fun e' h' => by rw [hb1] at h'; simp at h', d3, tt⟩

/-! ## The claims -/

/-- Claim C3 (self-exclusion): for every path whose file name contains `_small.`
or `_thm.`, whatever its extension and whatever the output directory,
`thumbnail` returns nil and leaves the whole state as it was: no entry is
appended to `pix`, no file is removed, linked, created or written, and no call
is made. -/
theorem self_exclusion (env : Env) (path : Str) (fn_stat : Nat) (w : World)
    (h : Contains (Base path) "_small.".toList = true
      ∨ Contains (Base path) "_thm.".toList = true) :
    thumbnail env path fn_stat w = (none, w) := by
  have hn : FileName (Base path) := fileName_of_marker _ h (Base_shape path)
  obtain ⟨p, hj, _⟩ := Join_fileName env.target (Base path) hn
  apply thumbnail_skip
  apply classify_none_of_marker
  rw [hj]
  rcases h with h | h
  · exact Or.inr (Contains_append_left _ _ _ h)
  · exact Or.inl (Contains_append_left _ _ _ h)

/-- Claim C3 at a concrete input: a thumbnail with a valid image extension,
found in a sub-directory, is passed over. -/
theorem self_exclusion_witness :
    thumbnail (demoEnv "out".toList) "sub/foo_thm.PNG".toList 7 withDerivative
      = (none, withDerivative) :=
  self_exclusion (demoEnv "out".toList) "sub/foo_thm.PNG".toList 7 withDerivative
    (Or.inr (by decide))

/-- Claim C2 evaluated: the file name `a.jpg` has a photo extension and no
marker, and is processed under the output directory `out`; under the output
directory `out_thm.d` the same path is skipped (nothing appended, no call made),
because the markers are searched in the joined path. In the other direction the
walk root `.`, whose name has no photo extension, is taken as a photo under the
output directory `x.jpg`. -/
theorem classification_reads_output_directory :
    classify "out".toList "a.jpg".toList = some ("out/a.jpg".toList, ".jpg".toList)
      ∧ classify "out_thm.d".toList "a.jpg".toList = none
      ∧ (thumbnail (demoEnv "out_thm.d".toList) "a.jpg".toList 10 onePhoto).1 = none
      ∧ (thumbnail (demoEnv "out_thm.d".toList) "a.jpg".toList 10 onePhoto).2.pix = []
      ∧ (thumbnail (demoEnv "out_thm.d".toList) "a.jpg".toList 10 onePhoto).2.trace = []
      ∧ (thumbnail (demoEnv "out".toList) "a.jpg".toList 10 onePhoto).2.pix.length = 1
      ∧ isPhotoExt (Base ".".toList) = false
      ∧ classify "x.jpg".toList ".".toList = some ("x.jpg".toList, ".jpg".toList) := by
  decide

/-- Claim C4 evaluated: for `a.jpg.jpg` the base is `a.jpg` and the extension
`.jpg`, yet the small file is created at `out/a_small.jpg_small.jpg` and the
entry names `a_small.jpg_small.jpg` and `a_thm.jpg_thm.jpg`; nothing is created
at `out/a.jpg_small.jpg`. An output directory that holds the extension is
renamed as well. -/
theorem replace_hits_every_occurrence :
    classify "out".toList "a.jpg.jpg".toList = some ("out/a.jpg.jpg".toList, ".jpg".toList)
      ∧ smallFn "out/a.jpg.jpg".toList ".jpg".toList = "out/a_small.jpg_small.jpg".toList
      ∧ thmFn "out/a.jpg.jpg".toList ".jpg".toList = "out/a_thm.jpg_thm.jpg".toList
      ∧ (thumbnail (demoEnv "out".toList) "a.jpg.jpg".toList 10 doubledExt).2.pix.map
          (fun p => (p.Filename, p.Small, p.Thumbnail))
          = [("a.jpg.jpg".toList, "a_small.jpg_small.jpg".toList, "a_thm.jpg_thm.jpg".toList)]
      ∧ Event.create "out/a_small.jpg_small.jpg".toList
          ∈ (thumbnail (demoEnv "out".toList) "a.jpg.jpg".toList 10 doubledExt).2.trace
      ∧ (thumbnail (demoEnv "out".toList) "a.jpg.jpg".toList 10 doubledExt).2.fs
          "out/a.jpg_small.jpg".toList = none
      ∧ smallFn "my.jpg.d/a.jpg".toList ".jpg".toList = "my_small.jpg.d/a_small.jpg".toList := by
  decide

/-- Claim C10 evaluated: with the output directory `.` the destination of
`a.jpg` is `a.jpg` itself; the source exists before the call, is removed by
line 74, and the call ends with the error of the copy. -/
theorem source_removed_when_directories_overlap :
    Join ".".toList (Base "a.jpg".toList) = "a.jpg".toList
      ∧ onePhoto.fs "a.jpg".toList = some ⟨"JPEG-a".toList, 10⟩
      ∧ (thumbnail (demoEnv ".".toList) "a.jpg".toList 10 onePhoto).2.fs "a.jpg".toList = none
      ∧ (thumbnail (demoEnv ".".toList) "a.jpg".toList 10 onePhoto).1
          = some (.copyFile "a.jpg".toList "a.jpg".toList)
      ∧ (thumbnail (demoEnv ".".toList) "a.jpg".toList 10 onePhoto).2.trace
          = [.remove "a.jpg".toList, .link "a.jpg".toList "a.jpg".toList,
              .copy "a.jpg".toList "a.jpg".toList] := by
  decide

/-- Claim C5 (naming injectivity): for two processed paths whose file names
differ when compared ignoring case, the entries carry these file names, their
small names differ, their thumbnail names differ, and no small name equals a
thumbnail name or a file name of either. -/
theorem naming_injective (env : Env) (p1 p2 fn1 e1 fn2 e2 : Str) (img1 img2 : Image)
    (c1 c2 : Str)
    (h1 : classify env.target p1 = some (fn1, e1))
    (h2 : classify env.target p2 = some (fn2, e2))
    (hf1 : FileName (Base p1)) (hf2 : FileName (Base p2))
    (hne : ToLower (Base p1) ≠ ToLower (Base p2)) :
    (entry env fn1 e1 img1 c1).Filename = Base p1
      ∧ (entry env fn2 e2 img2 c2).Filename = Base p2
      ∧ (entry env fn1 e1 img1 c1).Small ≠ (entry env fn2 e2 img2 c2).Small
      ∧ (entry env fn1 e1 img1 c1).Thumbnail ≠ (entry env fn2 e2 img2 c2).Thumbnail
      ∧ ∀ s ∈ [(entry env fn1 e1 img1 c1).Small, (entry env fn2 e2 img2 c2).Small],
          ∀ x ∈ [(entry env fn1 e1 img1 c1).Thumbnail, (entry env fn2 e2 img2 c2).Thumbnail,
            Base p1, Base p2], s ≠ x := by
  have hn : Base p1 ≠ Base p2 := fun e => hne (by rw [e])
  obtain ⟨s12, t12, st12, sn12, b1⟩ := names_core _ _ _ _ _ _ _ h1 h2 hf1 hf2
  obtain ⟨_, _, st21, sn21, b2⟩ := names_core _ _ _ _ _ _ _ h2 h1 hf2 hf1
  obtain ⟨_, _, st11, sn11, _⟩ := names_core _ _ _ _ _ _ _ h1 h1 hf1 hf1
  obtain ⟨_, _, st22, sn22, _⟩ := names_core _ _ _ _ _ _ _ h2 h2 hf2 hf2
  refine ⟨b1, b2, fun e => hn (s12 e), fun e => hn (t12 e), ?_⟩
  intro s hs x hx
  simp only [List.mem_cons, List.mem_singleton, List.not_mem_nil, or_false] at hs hx
  rcases hs with rfl | rfl <;> rcases hx with rfl | rfl | rfl | rfl
  · exact st11
  · exact st12
  · exact sn11
  · exact sn12
  · exact st21
  · exact st22
  · exact sn21
  · exact sn22

/-- Claim C5 at a concrete input: `a.jpg` and `sub/B.JPG` under the output
directory `out`. -/
theorem naming_injective_witness :
    (entry (demoEnv "out".toList) "out/a.jpg".toList ".jpg".toList ⟨1, 1, 0, true⟩ []).Small
      ≠ (entry (demoEnv "out".toList) "out/B.JPG".toList ".JPG".toList ⟨1, 1, 0, true⟩ []).Small :=
  (naming_injective (demoEnv "out".toList) "a.jpg".toList "sub/B.JPG".toList
    "out/a.jpg".toList ".jpg".toList "out/B.JPG".toList ".JPG".toList
    ⟨1, 1, 0, true⟩ ⟨1, 1, 0, true⟩ [] []
    (by decide) (by decide) (by decide) (by decide) (by decide)).2.2.1

/-- Claim C6, refuted as stated: the small file of `a.jpg` is older (time 3)
than the source (time 10), but `os.Create` is refused on it; `thumbnail` returns
that error and the small file is neither created anew nor written: it keeps its
old bytes and time. -/
theorem small_create_refused_counterexample :
    smallStale lockedEnv (galleryOf 3 50).fs "../gallery/a.jpg".toList ".jpg".toList 10
      ∧ (thumbnail lockedEnv "a.jpg".toList 10 (galleryOf 3 50)).1
          = some (.create "../gallery/a_small.jpg".toList)
      ∧ (thumbnail lockedEnv "a.jpg".toList 10 (galleryOf 3 50)).2.fs
          "/home/u/gallery/a_small.jpg".toList = some ⟨"old-small".toList, 3⟩
      ∧ Event.write "../gallery/a_small.jpg".toList
          ∉ (thumbnail lockedEnv "a.jpg".toList 10 (galleryOf 3 50)).2.trace := by
  decide

/-- Claim C6 as amended (staleness of the small file): for a processed path
whose full-size copy was installed and whose source opens and decodes,
`thumbnail` calls `os.Create` on the small file exactly when that file is
missing or its modification time is strictly before the source's. When the file
is not stale it is not written and stays as it was. When it is stale and the
call is refused, `thumbnail` returns that error and the file stays as it was.
When it is stale and the call succeeds, the file is written and holds the
encoded resized image for the formats `jpeg` and `png`, and is left empty with
the error `unexpected format` for any other format. In every case the entry with
the sizes of the source and of the resized image is appended to `pix`. -/
theorem small_file_staleness (env : Env) (path : Str) (fn_stat : Nat) (w : World)
    (fn ext : Str) (img : Image) (format copyright : Str)
    (hc : classify env.target path = some (fn, ext))
    (hp : (passthrough env path fn w).1 = none)
    (hl : load env path (passthrough env path fn w).2 = .ok (img, format, copyright)) :
    (Event.create (smallFn fn ext) ∈ newEvents w (thumbnail env path fn_stat w).2
        ↔ smallStale env w.fs fn ext fn_stat)
      ∧ (¬ smallStale env w.fs fn ext fn_stat →
          Event.write (smallFn fn ext) ∉ newEvents w (thumbnail env path fn_stat w).2
            ∧ (thumbnail env path fn_stat w).2.fs (env.resolve (smallFn fn ext))
                = w.fs (env.resolve (smallFn fn ext)))
      ∧ (smallStale env w.fs fn ext fn_stat → env.createOk (smallFn fn ext) = false →
          (thumbnail env path fn_stat w).1 = some (.create (smallFn fn ext))
            ∧ (thumbnail env path fn_stat w).2.fs (env.resolve (smallFn fn ext))
                = w.fs (env.resolve (smallFn fn ext)))
      ∧ (smallStale env w.fs fn ext fn_stat → env.createOk (smallFn fn ext) = true →
          (format = "jpeg".toList →
            Event.write (smallFn fn ext) ∈ newEvents w (thumbnail env path fn_stat w).2
              ∧ (thumbnail env path fn_stat w).2.fs (env.resolve (smallFn fn ext))
                  = some ⟨env.encodeJpeg (env.resizeThumbnail env.small_w env.small_h img),
                      env.now⟩)
          ∧ (format = "png".toList →
            Event.write (smallFn fn ext) ∈ newEvents w (thumbnail env path fn_stat w).2
              ∧ (thumbnail env path fn_stat w).2.fs (env.resolve (smallFn fn ext))
                  = some ⟨env.encodePng (env.resizeThumbnail env.small_w env.small_h img),
                      env.now⟩)
          ∧ (format ≠ "jpeg".toList → format ≠ "png".toList →
            (thumbnail env path fn_stat w).1 = some (.unexpectedFormat format)
              ∧ (thumbnail env path fn_stat w).2.fs (env.resolve (smallFn fn ext))
                  = some ⟨[], env.now⟩))
      ∧ (thumbnail env path fn_stat w).2.pix = w.pix ++ [entry env fn ext img copyright]
      ∧ (entry env fn ext img copyright).Width = img.width
      ∧ (entry env fn ext img copyright).Height = img.height
      ∧ (entry env fn ext img copyright).SmallWidth
          = (env.resizeThumbnail env.small_w env.small_h img).width
      ∧ (entry env fn ext img copyright).SmallHeight
          = (env.resizeThumbnail env.small_w env.small_h img).height := by
  obtain ⟨hsf, _, hst, _, _, _, _⟩ := files_distinct env path fn ext hc
  have hnames : smallFn fn ext ≠ thmFn fn ext := fun e => hst (by rw [e])
  obtain ⟨d, ht, hd, _, _, hload⟩ := thumbnail_spec env path fn_stat w fn ext hc
  obtain ⟨hpix, hiff⟩ := hload img format copyright hp hl
  obtain ⟨vfs, verr, d3, vtr⟩ := thumbnail_small_view env path fn_stat w fn ext img format
    copyright hc hp hl
  obtain ⟨_, pf, d1, pt, _⟩ := passthrough_spec env path fn w
  have hstale : smallStale env (passthrough env path fn w).2.fs fn ext fn_stat
      ↔ smallStale env w.fs fn ext fn_stat := by
    unfold smallStale
    rw [pf _ hsf]
  have hbs := buildSmall_eq env fn ext fn_stat img format copyright (passthrough env path fn w).2
  rw [newEvents_append _ _ d ht]
  refine ⟨hiff, ?_, ?_, ?_, hpix, rfl, rfl, rfl, rfl⟩
  · intro hs
    refine ⟨?_, ?_⟩
    · intro hm
      rcases hd _ hm with h | h | h
      · rcases h with h | h | h <;> simp at h
      · exact hs h.2
      · rcases h.1 with h | h | h
        · simp at h
        · simp at h
        · simp only [Event.write.injEq] at h
          exact hnames h
    · rw [if_neg (fun h => hs (hstale.1 h))] at hbs
      rw [vfs, hbs]
      exact pf _ hsf
  · intro hs hcr
    rw [if_pos (hstale.2 hs), hcr, if_neg Bool.false_ne_true] at hbs
    refine ⟨verr _ (by rw [hbs]), ?_⟩
    rw [vfs, hbs]
    exact pf _ hsf
  · intro hs hcr
    rw [if_pos (hstale.2 hs), hcr, if_pos rfl] at hbs
    have hwrite : ∀ data : Str,
        buildSmall env fn ext fn_stat img format copyright (passthrough env path fn w).2
          = (none, writeFile env (smallFn fn ext) data
              ⟨(passthrough env path fn w).2.fs.set (env.resolve (smallFn fn ext))
                  (some ⟨[], env.now⟩),
                (passthrough env path fn w).2.pix ++ [entry env fn ext img copyright],
                (passthrough env path fn w).2.trace ++ [.create (smallFn fn ext)]⟩) →
        Event.write (smallFn fn ext) ∈ d
          ∧ (thumbnail env path fn_stat w).2.fs (env.resolve (smallFn fn ext))
              = some ⟨data, env.now⟩ := by
      intro data hb
      rw [hb] at vfs vtr
      refine ⟨?_, by rw [vfs]; exact (writeFile_spec _ _ _ _).2.2.2⟩
      have e : w.trace ++ d = w.trace ++ (d1 ++ [.create (smallFn fn ext),
          .write (smallFn fn ext)] ++ d3) := by
        rw [← ht, vtr, (writeFile_spec _ _ _ _).2.2.1]
        simp only [pt, List.append_assoc, List.singleton_append, List.cons_append,
          List.nil_append]
      rw [List.append_cancel_left e]
      simp
    refine ⟨?_, ?_, ?_⟩
    · intro hf
      apply hwrite
      rw [hbs]
      simp [encodeTo, hf]
    · intro hf
      apply hwrite
      rw [hbs]
      subst hf
      rw [encodeTo, if_neg (by decide), if_pos rfl]
    · intro h1 h2
      have hb : buildSmall env fn ext fn_stat img format copyright (passthrough env path fn w).2
          = (some (.unexpectedFormat format),
              ⟨(passthrough env path fn w).2.fs.set (env.resolve (smallFn fn ext))
                  (some ⟨[], env.now⟩),
                (passthrough env path fn w).2.pix ++ [entry env fn ext img copyright],
                (passthrough env path fn w).2.trace ++ [.create (smallFn fn ext)]⟩) := by
        rw [hbs, encodeTo, if_neg h1, if_neg h2]
      refine ⟨verr _ (by rw [hb]), ?_⟩
      rw [vfs, hb]
      exact FS.set_eq _ _ _

/-- Claim C6 as amended, at a concrete input: the small file in the gallery is
older (time 3) than the source (time 10); it is created again and holds the
encoded image afterwards. -/
theorem small_file_staleness_witness :
    Event.create "../gallery/a_small.jpg".toList
        ∈ newEvents (galleryOf 3 50) (thumbnail galleryEnv "a.jpg".toList 10 (galleryOf 3 50)).2
      ∧ (thumbnail galleryEnv "a.jpg".toList 10 (galleryOf 3 50)).2.fs
          "/home/u/gallery/a_small.jpg".toList = some ⟨"jpeg-bytes".toList, 100⟩ :=
  ⟨(small_file_staleness galleryEnv "a.jpg".toList 10 (galleryOf 3 50)
      "../gallery/a.jpg".toList ".jpg".toList ⟨1000, 800, 6, true⟩ "jpeg".toList []
      (by decide) (by decide) rfl).1.2 (by decide),
    (((small_file_staleness galleryEnv "a.jpg".toList 10 (galleryOf 3 50)
      "../gallery/a.jpg".toList ".jpg".toList ⟨1000, 800, 6, true⟩ "jpeg".toList []
      (by decide) (by decide) rfl).2.2.2.1 (by decide) (by decide)).1 rfl).2⟩

/-- Claim C1, refuted as stated: of the three walked sources the second does
not decode; the run ends in the fatal `walk error` with the decode error of
`bad.jpg`, the third source is never reached (no copy of `c.png` in `out`), and
the index is left empty. -/
theorem failure_isolation_counterexample :
    (main (demoEnv "out".toList) threeWalk threeSources).1
        = some (.walkError (.decode "bad.jpg".toList))
      ∧ (main (demoEnv "out".toList) threeWalk threeSources).2.fs "out/c.png".toList = none
      ∧ (main (demoEnv "out".toList) threeWalk threeSources).2.fs "out/index.md".toList
          = some ⟨[], 100⟩ := by
  decide

/-- Claim C1 as amended (failures abort the batch): once the output directory,
the index and the profile file are set up, if the calls for the walked entries
`pre` return nil and the call for the next entry returns an error, then `main`
ends in the fatal `walk error` carrying that error, in the state that call left.
The index file is then empty as `os.Create` left it, no write ever went to it,
and every call made after the set-up belongs to an entry of `pre` or to the
failing entry: no later entry is processed. -/
theorem failure_aborts_batch (env : Env) (pre : List WalkEntry) (e : WalkEntry)
    (post : List WalkEntry) (w : World) (err : Err)
    (hs : (setup env w).1 = none)
    (hpre : (walk env pre (setup env w).2).1 = none)
    (hfail : (walkFn env e (walk env pre (setup env w).2).2).1 = some err) :
    main env (pre ++ e :: post) w
        = (some (.walkError err), (walkFn env e (walk env pre (setup env w).2).2).2)
      ∧ (main env (pre ++ e :: post) w).2.fs (env.resolve (indexPath env))
          = some ⟨[], env.now⟩
      ∧ (∀ p, Event.write p ∈ newEvents w (main env (pre ++ e :: post) w).2 →
          env.resolve p ≠ env.resolve (indexPath env))
      ∧ ∀ ev ∈ newEvents w (main env (pre ++ e :: post) w).2,
          ev = .create (indexPath env) ∨ ev = .create env.cpuprofile
            ∨ ∃ x ∈ pre ++ [e], thumbnailEvent env x.path ev := by
  have hm : main env (pre ++ e :: post) w
      = (some (.walkError err), (walkFn env e (walk env pre (setup env w).2).2).2) := by
    rw [main_of_setup env _ w hs, walk_stops env pre e post _ err hpre hfail]
  obtain ⟨_, hidx, _, _, hts⟩ := setup_spec env w hs
  obtain ⟨⟨dp, htp, hdp⟩, hfp⟩ := walk_frame env pre (setup env w).2
  obtain ⟨⟨de, hte, hde⟩, hfe⟩ := walkFn_frame env e (walk env pre (setup env w).2).2
  have htot : (walkFn env e (walk env pre (setup env w).2).2).2.trace
      = w.trace ++ ((.create (indexPath env)
          :: (if env.cpuprofile = [] then [] else [.create env.cpuprofile])) ++ dp ++ de) := by
    rw [hte, htp, hts]
    simp only [List.append_assoc]
  have hev : ∀ ev ∈ (Event.create (indexPath env)
      :: (if env.cpuprofile = [] then [] else [.create env.cpuprofile])) ++ dp ++ de,
      ev = .create (indexPath env) ∨ ev = .create env.cpuprofile
        ∨ ∃ x ∈ pre ++ [e], thumbnailEvent env x.path ev := by
    intro ev hm
    rcases List.mem_append.1 hm with h1 | h1
    · rcases List.mem_append.1 h1 with h2 | h2
      · rcases List.mem_cons.1 h2 with h3 | h3
        · exact Or.inl h3
        · by_cases hcp : env.cpuprofile = []
          · rw [if_pos hcp] at h3
            simp at h3
          · rw [if_neg hcp] at h3
            exact Or.inr (Or.inl (List.mem_singleton.1 h3))
      · obtain ⟨x, hx, hxe⟩ := hdp ev h2
        exact Or.inr (Or.inr ⟨x, List.mem_append_left _ hx, hxe⟩)
    · exact Or.inr (Or.inr ⟨e, by simp, hde ev h1⟩)
  rw [hm]
  refine ⟨rfl, ?_, ?_, ?_⟩
  · show (walkFn env e (walk env pre (setup env w).2).2).2.fs _ = _
    rw [hfe _ (index_untouched env e.path),
      hfp _ (fun x _ => index_untouched env x.path), hidx]
  · intro p hp
    rw [newEvents_append _ _ _ htot] at hp
    rcases hev _ hp with h1 | h1 | ⟨x, _, hx⟩
    · simp at h1
    · simp at h1
    · exact thumbnailEvent_write env x.path p hx
  · rw [newEvents_append _ _ _ htot]
    exact hev

/-- Claim C1 as amended, at a concrete input: the walk of a directory that
holds `a.jpg`, `bad.jpg` (not an image) and `c.png`, with the output directory
`../gallery`: the run ends in the walk error of `bad.jpg`, the index is empty
and no copy of `c.png` was made. -/
theorem failure_aborts_batch_witness :
    (main galleryEnv
        ([⟨".".toList, 12, none⟩, ⟨"a.jpg".toList, 10, none⟩] ++ ⟨"bad.jpg".toList, 11, none⟩
          :: [⟨"c.png".toList, 12, none⟩]) brokenDir).1
        = some (.walkError (.decode "bad.jpg".toList))
      ∧ (main galleryEnv
        ([⟨".".toList, 12, none⟩, ⟨"a.jpg".toList, 10, none⟩] ++ ⟨"bad.jpg".toList, 11, none⟩
          :: [⟨"c.png".toList, 12, none⟩]) brokenDir).2.fs "/home/u/gallery/index.md".toList
        = some ⟨[], 100⟩
      ∧ (main galleryEnv
        ([⟨".".toList, 12, none⟩, ⟨"a.jpg".toList, 10, none⟩] ++ ⟨"bad.jpg".toList, 11, none⟩
          :: [⟨"c.png".toList, 12, none⟩]) brokenDir).2.fs "/home/u/gallery/c.png".toList
        = none :=
  ⟨congrArg Prod.fst (failure_aborts_batch galleryEnv
      [⟨".".toList, 12, none⟩, ⟨"a.jpg".toList, 10, none⟩] ⟨"bad.jpg".toList, 11, none⟩
      [⟨"c.png".toList, 12, none⟩] brokenDir (.decode "bad.jpg".toList)
      (by decide) (by decide) (by decide)).1,
    (failure_aborts_batch galleryEnv
      [⟨".".toList, 12, none⟩, ⟨"a.jpg".toList, 10, none⟩] ⟨"bad.jpg".toList, 11, none⟩
      [⟨"c.png".toList, 12, none⟩] brokenDir (.decode "bad.jpg".toList)
      (by decide) (by decide) (by decide)).2.1,
    by decide⟩

/-- Claim C9, refuted as stated: the walk finds no photo and the run is fatal,
but the index that held `old manifest` before the run is empty after it. -/
theorem empty_gallery_counterexample :
    (main (demoEnv "out".toList) noPhotoWalk oldIndex).1 = some .noPhotos
      ∧ oldIndex.fs "out/index.md".toList = some ⟨"old manifest".toList, 5⟩
      ∧ (main (demoEnv "out".toList) noPhotoWalk oldIndex).2.fs "out/index.md".toList
          = some ⟨[], 100⟩ := by
  decide

/-- Claim C9 as amended (an empty gallery is fatal and leaves an empty index):
if every walked path is skipped, `main` ends in a fatal error. When the output
directory, the index and the profile file could be set up, that error is `did
not find any photos`; the only calls made are the `os.Create` of the index and,
under `-cpuprofile`, of the profile file, both before the walk; the index file
exists and is empty; and every file other than the index and the profile file
is as it was. -/
theorem empty_gallery_fatal (env : Env) (entries : List WalkEntry) (w : World)
    (hskip : ∀ e ∈ entries, e.err = none ∧ classify env.target e.path = none) :
    (main env entries w).1 ≠ none
      ∧ ((setup env w).1 = none →
          (main env entries w).1 = some .noPhotos
            ∧ (main env entries w).2.fs (env.resolve (indexPath env)) = some ⟨[], env.now⟩
            ∧ (∀ q, q ≠ env.resolve (indexPath env)
                → (env.cpuprofile ≠ [] → q ≠ env.resolve env.cpuprofile)
                → (main env entries w).2.fs q = w.fs q)
            ∧ (main env entries w).2.trace
                = w.trace ++ .create (indexPath env)
                    :: (if env.cpuprofile = [] then [] else [.create env.cpuprofile])
            ∧ (main env entries w).2.pix = []) := by
  have hok : (setup env w).1 = none → main env entries w = (some .noPhotos, (setup env w).2) := by
    intro hs
    obtain ⟨hp, _⟩ := setup_spec env w hs
    rw [main_of_setup env _ w hs, walk_all_skipped env entries _ hskip]
    simp only [finish, hp]
  constructor
  · cases hs : (setup env w).1 with
    | some f =>
      rw [main_setup_failed env entries w f hs]
      simp
    | none =>
      rw [hok hs]
      simp
  · intro hs
    obtain ⟨hp, hi, _, hf, ht⟩ := setup_spec env w hs
    rw [hok hs]
    exact ⟨rfl, hi, hf, ht, hp⟩

/-- Claim C9 as amended, at a concrete input: the walk of a directory that
holds only a text file, run with `-cpuprofile ../cpu.prof` and the output directory
`../gallery`, where an earlier run left an index. -/
theorem empty_gallery_fatal_witness :
    (main profiledEnv emptyDirWalk emptyDir).1 = some .noPhotos
      ∧ (main profiledEnv emptyDirWalk emptyDir).2.fs "/home/u/gallery/index.md".toList
          = some ⟨[], 100⟩
      ∧ (main profiledEnv emptyDirWalk emptyDir).2.trace
          = [.create "../gallery/index.md".toList, .create "../cpu.prof".toList] :=
  ⟨((empty_gallery_fatal profiledEnv emptyDirWalk emptyDir (by decide)).2 (by decide)).1,
    ((empty_gallery_fatal profiledEnv emptyDirWalk emptyDir (by decide)).2 (by decide)).2.1,
    ((empty_gallery_fatal profiledEnv emptyDirWalk emptyDir (by decide)).2
      (by decide)).2.2.2.1⟩

/-- Claim C8 (order of the manifest and cover): once the output directory, the
index and the profile file are set up, if the walk returns no error and
processes at least one path, and the profile file is not the index file, then
`main` returns; `pix` holds one entry for each processed path, in the order of
the walk, with the names line 108 derives; and the index file holds exactly the
header, with title, date, categories and the line `cover = "…"` naming the base
name of the first processed path, then the opening `wrap` line, one `photo`
block for each entry in that order, and the closing `wrap` line. -/
theorem manifest_order_and_cover (env : Env) (entries : List WalkEntry) (w : World)
    (hs : (setup env w).1 = none)
    (hw : (walk env entries (setup env w).2).1 = none)
    (hc : candidates env entries ≠ [])
    (hprof : env.cpuprofile ≠ [] → env.resolve env.cpuprofile ≠ env.resolve (indexPath env)) :
    (main env entries w).1 = none
      ∧ (main env entries w).2.pix.map (fun p => (p.Filename, p.Small, p.Thumbnail))
          = (candidates env entries).map
              (fun c => (Base c.2.1, Base (smallFn c.2.1 c.2.2), Base (thmFn c.2.1 c.2.2)))
      ∧ ∃ path0 fn0 ext0 rest, candidates env entries = (path0, fn0, ext0) :: rest
          ∧ (FileName (Base path0) → Base fn0 = Base path0)
          ∧ (main env entries w).2.fs (env.resolve (indexPath env))
              = some ⟨"+++\n".toList ++ "title = \"".toList ++ env.title ++ "\"\n".toList
                  ++ "date = \"".toList ++ env.today ++ "\"\n".toList
                  ++ "categories = [\"\"\"photos\"\"\"]\n".toList
                  ++ "cover = \"".toList ++ Base fn0 ++ "\"\n".toList
                  ++ "+++\n\n".toList
                  ++ "\x7b\x7b< wrap >\x7d\x7d\n".toList
                  ++ ((main env entries w).2.pix.map (fun p =>
                      "\x7b\x7b< photo\n    href=\"".toList ++ p.Filename
                        ++ "\" largeDim=\"".toList ++ Nat.toDigits 10 p.Width
                        ++ "x".toList ++ Nat.toDigits 10 p.Height
                        ++ "\"\n    smallUrl=\"".toList ++ p.Small
                        ++ "\" smallDim=\"".toList ++ Nat.toDigits 10 p.SmallWidth
                        ++ "x".toList ++ Nat.toDigits 10 p.SmallHeight
                        ++ "\"\n    thumbSize=\"".toList ++ Nat.toDigits 10 env.thm_w
                        ++ "x".toList ++ Nat.toDigits 10 env.thm_h
                        ++ "\" thumbUrl=\"".toList ++ p.Thumbnail
                        ++ "\"\n    title=\"\"\n    caption=\"\"\n    alt=\"\"\n    copyright=\"".toList
                        ++ p.Copyright ++ "\" >\x7d\x7d\n".toList)).flatten
                  ++ "\x7b\x7b< /wrap >\x7d\x7d\n".toList, env.now⟩ := by
  obtain ⟨hp, _, _, _, _⟩ := setup_spec env w hs
  have hpix := walk_pix env entries _ hw
  rw [hp] at hpix
  simp only [List.map_nil, List.nil_append] at hpix
  obtain ⟨c0, rest, hcand⟩ := List.exists_cons_of_ne_nil hc
  obtain ⟨path0, fn0, ext0⟩ := c0
  have hmain := main_of_setup env entries w hs
  rcases hwk : walk env entries (setup env w).2 with ⟨r, w2⟩
  rw [hwk] at hw hpix hmain
  simp only at hw hpix hmain
  subst hw
  simp only at hmain
  cases hw2 : w2.pix with
  | nil =>
    rw [hw2, hcand] at hpix
    simp at hpix
  | cons p0 ps =>
    obtain ⟨hfin1, hfin2⟩ := finish_index env w2 p0 ps hw2 hprof
    have hfpix := (finish_frame env w2).1
    have hname : p0.Filename = Base fn0 := by
      rw [hw2, hcand] at hpix
      simp only [List.map_cons, List.cons.injEq, pixNames, entryNames, Prod.mk.injEq] at hpix
      exact hpix.1.1
    rw [hmain]
    refine ⟨hfin1, ?_, path0, fn0, ext0, rest, hcand, ?_, ?_⟩
    · rw [hfpix]
      exact hpix
    · intro hfn
      have hcl := mem_candidates env entries path0 fn0 ext0 (by rw [hcand]; simp)
      exact (names_core _ _ _ _ _ _ _ hcl hcl hfn hfn).2.2.2.2
    · rw [hfin2, hfpix, hw2]
      simp only [renderIndex, renderHeader, renderFooter, hname]
      rfl

set_option maxRecDepth 100000 in
/-- Claim C8 at a concrete input: the walk of a directory that holds `a.jpg`,
`c.png` and `notes.txt`, with the output directory `../gallery` and the profile
file `../cpu.prof`; the index text is given in full. -/
theorem manifest_order_and_cover_witness :
    (main profiledEnv photoDirWalk photoDir).1 = none
      ∧ (main profiledEnv photoDirWalk photoDir).2.pix.map
          (fun p => (p.Filename, p.Small, p.Thumbnail))
          = [("a.jpg".toList, "a_small.jpg".toList, "a_thm.jpg".toList),
              ("c.png".toList, "c_small.png".toList, "c_thm.png".toList)]
      ∧ (main profiledEnv photoDirWalk photoDir).2.fs "/home/u/gallery/index.md".toList
          = some ⟨("+++\ntitle = \"Album\"\ndate = \"2024-05-01\"\n"
              ++ "categories = [\"\"\"photos\"\"\"]\ncover = \"a.jpg\"\n+++\n\n"
              ++ "\x7b\x7b< wrap >\x7d\x7d\n"
              ++ "\x7b\x7b< photo\n    href=\"a.jpg\" largeDim=\"1000x800\"\n"
              ++ "    smallUrl=\"a_small.jpg\" smallDim=\"800x800\"\n"
              ++ "    thumbSize=\"256x256\" thumbUrl=\"a_thm.jpg\"\n"
              ++ "    title=\"\"\n    caption=\"\"\n    alt=\"\"\n    copyright=\"\" >\x7d\x7d\n"
              ++ "\x7b\x7b< photo\n    href=\"c.png\" largeDim=\"1000x800\"\n"
              ++ "    smallUrl=\"c_small.png\" smallDim=\"800x800\"\n"
              ++ "    thumbSize=\"256x256\" thumbUrl=\"c_thm.png\"\n"
              ++ "    title=\"\"\n    caption=\"\"\n    alt=\"\"\n    copyright=\"\" >\x7d\x7d\n"
              ++ "\x7b\x7b< /wrap >\x7d\x7d\n").toList, 100⟩ :=
  ⟨(manifest_order_and_cover profiledEnv photoDirWalk photoDir (by decide) (by decide)
      (by decide) (by decide)).1,
    (manifest_order_and_cover profiledEnv photoDirWalk photoDir (by decide) (by decide)
      (by decide) (by decide)).2.1.trans (by decide),
    by decide⟩

/-- Claim C7, refuted as stated: the thumbnail file exists with the
modification time of the source (10, so later than or equal), the small file is
newer, and yet `thumbnail` runs the crop search, creates the thumbnail file and
writes it. -/
theorem equal_time_thumbnail_counterexample :
    (withDerivatives 20 10).fs "out/a_thm.jpg".toList = some ⟨"old-thumb".toList, 10⟩
      ∧ (thumbnail (demoEnv "out".toList) "a.jpg".toList 10 (withDerivatives 20 10)).2.trace
          = [.link "a.jpg".toList "out/a.jpg".toList, .crop "out/a.jpg".toList,
              .create "out/a_thm.jpg".toList, .write "out/a_thm.jpg".toList]
      ∧ (thumbnail (demoEnv "out".toList) "a.jpg".toList 10 (withDerivatives 20 10)).2.fs
          "out/a_thm.jpg".toList = some ⟨"jpeg-bytes".toList, 100⟩ := by
  decide

/-- Claim C7 as amended (a strictly more recent thumbnail is left untouched):
for a processed path whose thumbnail file exists with a modification time
strictly after the source's, `thumbnail` makes no crop search and neither
creates nor writes the thumbnail file, which stays as it was. Consequently, in
a run over entries whose small files are not older and whose thumbnail files are
strictly more recent than their sources (the profile file, if any, being none of
these files), every small file and every thumbnail file of a processed entry
ends as it was, and the only calls made are the removal, link and copy of the
full-size copy of a processed entry, the creation and writing of the index, and
the creation and writing of the profile file: no crop search, and no creation
or writing of a small or thumbnail file. -/
theorem recent_thumbnail_untouched :
    (∀ (env : Env) (path : Str) (fn_stat : Nat) (w : World) (fn ext : Str) (st : File),
        classify env.target path = some (fn, ext) →
        w.fs (env.resolve (thmFn fn ext)) = some st → fn_stat < st.modTime →
        (∀ ev ∈ newEvents w (thumbnail env path fn_stat w).2,
            ev ≠ .crop fn ∧ ev ≠ .create (thmFn fn ext) ∧ ev ≠ .write (thmFn fn ext))
          ∧ (thumbnail env path fn_stat w).2.fs (env.resolve (thmFn fn ext)) = some st)
      ∧ (∀ (env : Env) (entries : List WalkEntry) (w : World),
        (∀ e ∈ entries, derivativesFresh env w.fs e) →
        (env.cpuprofile ≠ [] → ∀ e ∈ entries, ∀ fn ext,
          classify env.target e.path = some (fn, ext) →
            env.resolve env.cpuprofile ≠ env.resolve (smallFn fn ext)
              ∧ env.resolve env.cpuprofile ≠ env.resolve (thmFn fn ext)) →
        (∀ e ∈ entries, ∀ fn ext, classify env.target e.path = some (fn, ext) →
            (main env entries w).2.fs (env.resolve (smallFn fn ext))
                = w.fs (env.resolve (smallFn fn ext))
              ∧ (main env entries w).2.fs (env.resolve (thmFn fn ext))
                = w.fs (env.resolve (thmFn fn ext)))
          ∧ ∀ ev ∈ newEvents w (main env entries w).2,
              (∃ e ∈ entries, ∃ fn ext, classify env.target e.path = some (fn, ext)
                  ∧ (ev = .remove fn ∨ ev = .link e.path fn ∨ ev = .copy e.path fn))
                ∨ ev = .create (indexPath env) ∨ ev = .write (indexPath env)
                ∨ (env.cpuprofile ≠ []
                    ∧ (ev = .create env.cpuprofile ∨ ev = .write env.cpuprofile))) := by
  constructor
  · intro env path fn_stat w fn ext st hc hst hlt
    obtain ⟨_, htf, hsm, _, _, _, _⟩ := files_distinct env path fn ext hc
    have hnames : smallFn fn ext ≠ thmFn fn ext := fun e => hsm (by rw [e])
    obtain ⟨d, ht, hd, hfs, _, _⟩ := thumbnail_spec env path fn_stat w fn ext hc
    have hrec : thumbRecent env w.fs fn ext fn_stat := ⟨st, hst, hlt⟩
    rw [newEvents_append _ _ d ht]
    constructor
    · intro ev hev
      rcases hd ev hev with h | h | h
      · rcases h with h | h | h <;> subst h <;> simp
      · rcases h.1 with h | h <;> subst h
        · refine ⟨by simp, ?_, by simp⟩
          simp only [ne_eq, Event.create.injEq]
          exact hnames
        · refine ⟨by simp, by simp, ?_⟩
          simp only [ne_eq, Event.write.injEq]
          exact hnames
      · exact absurd hrec h.2
    · rw [hfs _ htf (fun _ => Ne.symm hsm) (fun h => absurd hrec h)]
      exact hst
  · exact main_fresh

/-- Claim C7 as amended, at a concrete input: the second run over the
directory that holds `a.jpg` (time 10), with the output directory `../gallery`
in which the small file and the thumbnail file carry the time 50. The thumbnail
file is not created, both derivative files end as they were, and the calls of
the run are those on the index and on the full-size copy. -/
theorem recent_thumbnail_untouched_witness :
    Event.create "../gallery/a_thm.jpg".toList
        ∉ newEvents (galleryOf 50 50)
          (thumbnail galleryEnv "a.jpg".toList 10 (galleryOf 50 50)).2
      ∧ (main galleryEnv onePhotoWalk (galleryOf 50 50)).2.fs
          "/home/u/gallery/a_small.jpg".toList = some ⟨"old-small".toList, 50⟩
      ∧ (main galleryEnv onePhotoWalk (galleryOf 50 50)).2.fs
          "/home/u/gallery/a_thm.jpg".toList = some ⟨"old-thumb".toList, 50⟩
      ∧ (main galleryEnv onePhotoWalk (galleryOf 50 50)).2.trace
          = [.create "../gallery/index.md".toList, .remove "../gallery/a.jpg".toList,
              .link "a.jpg".toList "../gallery/a.jpg".toList,
              .write "../gallery/index.md".toList] :=
  have hfresh : ∀ e ∈ onePhotoWalk, derivativesFresh galleryEnv (galleryOf 50 50).fs e := by
    intro e he fn ext hc
    simp only [onePhotoWalk, List.mem_cons, List.mem_singleton, List.not_mem_nil,
      or_false] at he
    rcases he with rfl | rfl
    · have h0 : classify galleryEnv.target ".".toList = none := by decide
      rw [h0] at hc
      simp at hc
    · have h0 : classify galleryEnv.target "a.jpg".toList
          = some ("../gallery/a.jpg".toList, ".jpg".toList) := by decide
      rw [h0] at hc
      simp only [Option.some.injEq, Prod.mk.injEq] at hc
      obtain ⟨rfl, rfl⟩ := hc
      exact ⟨by decide, ⟨"old-thumb".toList, 50⟩, by decide, by decide⟩
  ⟨fun hm => ((recent_thumbnail_untouched.1 galleryEnv "a.jpg".toList 10
      (galleryOf 50 50) "../gallery/a.jpg".toList ".jpg".toList ⟨"old-thumb".toList, 50⟩
      (by decide) (by decide) (by decide)).1 _ hm).2.1 (by decide),
    ((recent_thumbnail_untouched.2 galleryEnv onePhotoWalk (galleryOf 50 50) hfresh
      (fun h => absurd rfl h)).1 ⟨"a.jpg".toList, 10, none⟩ (by simp [onePhotoWalk])
      "../gallery/a.jpg".toList ".jpg".toList (by decide)).1.trans (by decide),
    ((recent_thumbnail_untouched.2 galleryEnv onePhotoWalk (galleryOf 50 50) hfresh
      (fun h => absurd rfl h)).1 ⟨"a.jpg".toList, 10, none⟩ (by simp [onePhotoWalk])
      "../gallery/a.jpg".toList ".jpg".toList (by decide)).2.trans (by decide),
    by decide⟩

end Hugopix
